import Mathlib

/-!
# git-backed-cqrs: storage engine of `main.go`

A shallow embedding of the event-sourcing core of `src/main.go`
(`InitStorage`, `UpdateStream`, `UpdateStreamIndex`, the two projection
readers and updaters, `Handle`, `StoreEvent`, `CreateTodoList.Validate`
and `CreateTodoListHandler`) together with the library behaviour the code
relies on (`strconv.Itoa` / `strconv.Atoi`, `fmt.Sprintf("%06d")`,
`encoding/json` for the two record types, the file-system calls and the
`git` child process).

Conventions.
* A Go `string` / `[]byte` is a list of byte values (`Bytes`); Go strings are
  arbitrary byte sequences, not necessarily UTF-8.
* A Go `int` is a 64-bit two's complement integer, kept as an `Int` in
  `[-2^63, 2^63)`; `count + 1` wraps (`wrapInt64`).
* A file-system location is the list of its path components (`Path`); the
  `repo` argument is given as its resolved component list. Permissions and
  transient I/O failures are not modelled: a file-system call fails only
  for what is or is not stored (missing parent, existing directory, …).
* `encoding/json` follows the current Go release: `json.Marshal` escapes
  HTML characters and replaces ill-formed UTF-8 by U+FFFD,
  `json.Unmarshal` accepts any JSON text nested at most 10000 deep.
* The `git` child process is outside the program: each run succeeds or
  fails as `World.gitOutcomes` says, and only `init` changes modelled files.
* Every operation passes the `World` explicitly and returns the Go `error`
  as an `Option Error` (`none` is `nil`); effects made before a failure stay.
-/

namespace GitBackedCqrs

/-! ## Bytes and errors -/

/-- A Go string or byte slice. -/
abbrev Bytes := List Nat

/-- Byte values of an ASCII literal. -/
def lit (s : String) : Bytes := s.toList.map Char.toNat

/-- The Go `error` values that the modelled calls can return. -/
inductive Error where
  | notExist
  | alreadyExists
  | isDirectory
  | notDirectory
  | invalidInput
  | outOfRange
  | typeMismatch
  | marshalFailed
  | validationFailed
  | exitStatus
  deriving DecidableEq, Repr

deriving instance DecidableEq for Except

/-! ## strconv and fmt -/

/-- Decimal digits of `n`, most significant first, in front of `acc`. -/
def digitsAux : Nat → Nat → Bytes → Bytes
  | 0, _, acc => acc
  | fuel + 1, n, acc =>
    if n < 10 then (48 + n) :: acc
    else digitsAux fuel (n / 10) ((48 + n % 10) :: acc)

/-- Decimal rendering of a natural number (`strconv.FormatUint(n, 10)`). -/
def formatNat (n : Nat) : Bytes := digitsAux (n + 1) n []

/-- Go `strconv.Itoa`. -/
def Itoa (i : Int) : Bytes :=
  if i < 0 then 45 :: formatNat i.natAbs else formatNat i.natAbs

/-- Go `fmt.Sprintf("%06d", n)` for a non-negative `n`: the decimal digits,
left-padded with `0` to a width of at least six. -/
def sprintf06d (n : Nat) : Bytes :=
  let ds := formatNat n
  List.replicate (6 - ds.length) 48 ++ ds

/-- The digit loop of `strconv.ParseUint(s, 10, 64)`: a byte that is not a
digit is a syntax error, a value that leaves 64 bits is a range error. -/
def parseUintLoop : Bytes → Nat → Except Error Nat
  | [], n => .ok n
  | c :: cs, n =>
    if 48 ≤ c ∧ c ≤ 57 then
      if n ≥ 2 ^ 64 / 10 + 1 then .error .outOfRange
      else if n * 10 + (c - 48) ≥ 2 ^ 64 then .error .outOfRange
      else parseUintLoop cs (n * 10 + (c - 48))
    else .error .invalidInput

/-- Go `strconv.ParseUint(s, 10, 64)`. -/
def parseUint (s : Bytes) : Except Error Nat :=
  match s with
  | [] => .error .invalidInput
  | _ => parseUintLoop s 0

/-- Go `strconv.Atoi` on a 64-bit platform (the result of
`ParseInt(s, 10, 0)`, with which the short-input fast path agrees): an
optional sign, then one or more decimal digits, in the range of `int`. -/
def Atoi (s : Bytes) : Except Error Int :=
  match s with
  | [] => .error .invalidInput
  | 43 :: rest =>
    match parseUint rest with
    | .error e => .error e
    | .ok un => if un ≥ 2 ^ 63 then .error .outOfRange else .ok (Int.ofNat un)
  | 45 :: rest =>
    match parseUint rest with
    | .error e => .error e
    | .ok un => if un > 2 ^ 63 then .error .outOfRange else .ok (- Int.ofNat un)
  | _ =>
    match parseUint s with
    | .error e => .error e
    | .ok un => if un ≥ 2 ^ 63 then .error .outOfRange else .ok (Int.ofNat un)

/-- Two's complement wrap-around of 64-bit `int` arithmetic. -/
def wrapInt64 (x : Int) : Int := (x + 2 ^ 63) % 2 ^ 64 - 2 ^ 63

/-- The values of a Go `int`. -/
def IsInt64 (x : Int) : Prop := -(2 ^ 63) ≤ x ∧ x < 2 ^ 63

instance (x : Int) : Decidable (IsInt64 x) := by unfold IsInt64; infer_instance

/-- Byte-wise lexicographic order of Go strings (`a < b`). -/
def lexLt : Bytes → Bytes → Bool
  | _, [] => false
  | [], _ :: _ => true
  | a :: as, b :: bs => a < b || (a == b && lexLt as bs)

/-! ## unicode/utf8 -/

/-- Go `utf8.DecodeRune`: the first rune of `p` and its width in bytes; an
ill-formed or truncated sequence gives `(U+FFFD, 1)`, empty input
`(U+FFFD, 0)`. -/
def decodeRune : Bytes → Nat × Nat
  | [] => (0xFFFD, 0)
  | p0 :: rest =>
    if p0 < 0x80 then (p0, 1)
    else if p0 < 0xC2 then (0xFFFD, 1)
    else if p0 < 0xE0 then
      match rest with
      | b1 :: _ =>
        if 0x80 ≤ b1 ∧ b1 ≤ 0xBF then ((p0 % 32) * 64 + b1 % 64, 2) else (0xFFFD, 1)
      | [] => (0xFFFD, 1)
    else if p0 < 0xF0 then
      match rest with
      | b1 :: b2 :: _ =>
        if (if p0 = 0xE0 then 0xA0 else 0x80) ≤ b1 ∧ b1 ≤ (if p0 = 0xED then 0x9F else 0xBF)
            ∧ 0x80 ≤ b2 ∧ b2 ≤ 0xBF then
          ((p0 % 16) * 4096 + (b1 % 64) * 64 + b2 % 64, 3)
        else (0xFFFD, 1)
      | _ => (0xFFFD, 1)
    else if p0 < 0xF5 then
      match rest with
      | b1 :: b2 :: b3 :: _ =>
        if (if p0 = 0xF0 then 0x90 else 0x80) ≤ b1 ∧ b1 ≤ (if p0 = 0xF4 then 0x8F else 0xBF)
            ∧ 0x80 ≤ b2 ∧ b2 ≤ 0xBF ∧ 0x80 ≤ b3 ∧ b3 ≤ 0xBF then
          ((p0 % 8) * 262144 + (b1 % 64) * 4096 + (b2 % 64) * 64 + b3 % 64, 4)
        else (0xFFFD, 1)
      | _ => (0xFFFD, 1)
    else (0xFFFD, 1)

/-- Go `utf8.EncodeRune` / `utf8.AppendRune`: surrogates and values above
U+10FFFF are written as U+FFFD. -/
def encodeRune (r : Nat) : Bytes :=
  if r ≤ 0x7F then [r]
  else if r ≤ 0x7FF then [0xC0 + r / 64, 0x80 + r % 64]
  else if r > 0x10FFFF ∨ (0xD800 ≤ r ∧ r ≤ 0xDFFF) then [0xEF, 0xBF, 0xBD]
  else if r ≤ 0xFFFF then [0xE0 + r / 4096, 0x80 + r / 64 % 64, 0x80 + r % 64]
  else [0xF0 + r / 262144, 0x80 + r / 4096 % 64, 0x80 + r / 64 % 64, 0x80 + r % 64]

/-- Go `utf8.Valid`, with one unit of fuel per byte. -/
def validUTF8Aux : Nat → Bytes → Bool
  | _, [] => true
  | 0, _ :: _ => false
  | fuel + 1, b :: rest =>
    let d := decodeRune (b :: rest)
    if d.1 = 0xFFFD ∧ d.2 = 1 then false
    else validUTF8Aux fuel ((b :: rest).drop d.2)

/-- Go `utf8.Valid`. -/
def validUTF8 (s : Bytes) : Bool := validUTF8Aux s.length s

/-! ## encoding/json: writing -/

/-- Lower-case hexadecimal digit (`hex[i]` of package json). -/
def hexDigit (i : Nat) : Nat := if i < 10 then 48 + i else 87 + i

/-- What `appendString` writes for one byte below `utf8.RuneSelf`, with
`escapeHTML` on (the setting of `json.Marshal`). -/
def escapeAscii (b : Nat) : Bytes :=
  if b = 92 ∨ b = 34 then [92, b]
  else if b = 8 then [92, 98]
  else if b = 12 then [92, 102]
  else if b = 10 then [92, 110]
  else if b = 13 then [92, 114]
  else if b = 9 then [92, 116]
  else if b < 0x20 ∨ b = 60 ∨ b = 62 ∨ b = 38 then
    [92, 117, 48, 48, hexDigit (b / 16), hexDigit (b % 16)]
  else [b]

/-- The loop of `appendString`: the body of a JSON string literal for `src`. -/
def appendStringLoop : Nat → Bytes → Bytes
  | _, [] => []
  | 0, _ :: _ => []
  | fuel + 1, b :: rest =>
    if b < 0x80 then escapeAscii b ++ appendStringLoop fuel rest
    else
      let d := decodeRune (b :: rest)
      if d.1 = 0xFFFD ∧ d.2 = 1 then
        [92, 117, 102, 102, 102, 100] ++ appendStringLoop fuel rest
      else if d.1 = 0x2028 ∨ d.1 = 0x2029 then
        [92, 117, 50, 48, 50, hexDigit (d.1 % 16)]
          ++ appendStringLoop fuel ((b :: rest).drop d.2)
      else (b :: rest).take d.2 ++ appendStringLoop fuel ((b :: rest).drop d.2)

/-- Package json `appendString`: a Go string as a quoted JSON string. -/
def appendString (src : Bytes) : Bytes :=
  34 :: (appendStringLoop src.length src ++ [34])

/-- TodoList state (`type TodoList struct{ Name string }`). -/
structure TodoList where
  Name : Bytes
  deriving DecidableEq, Repr

/-- What `json.Marshal` writes for one `TodoList`. -/
def marshalTodoList (t : TodoList) : Bytes :=
  123 :: (lit "\"Name\":" ++ appendString t.Name ++ [125])

/-- The elements of a JSON array of `TodoList`, comma separated. -/
def marshalElems : List TodoList → Bytes
  | [] => []
  | [t] => marshalTodoList t
  | t :: t2 :: ts => marshalTodoList t ++ 44 :: marshalElems (t2 :: ts)

/-- Go `json.Marshal` of a `[]TodoList`; `none` is the nil slice. It
cannot fail for this type. -/
def jsonMarshalTodoLists : Option (List TodoList) → Bytes
  | none => lit "null"
  | some l => 91 :: (marshalElems l ++ [93])

/-! ## encoding/json: reading -/

/-- Skip JSON white space (space, tab, carriage return, line feed). -/
def skipWs : Bytes → Bytes
  | [] => []
  | c :: rest => if c = 32 ∨ c = 9 ∨ c = 13 ∨ c = 10 then skipWs rest else c :: rest

/-- Value of a hexadecimal digit. -/
def hexVal (c : Nat) : Option Nat :=
  if 48 ≤ c ∧ c ≤ 57 then some (c - 48)
  else if 97 ≤ c ∧ c ≤ 102 then some (c - 87)
  else if 65 ≤ c ∧ c ≤ 70 then some (c - 55)
  else none

/-- Package json `getu4`: the code unit of a leading `\uXXXX`. -/
def getu4 : Bytes → Option Nat
  | 92 :: 117 :: a :: b :: c :: d :: _ =>
    match hexVal a, hexVal b, hexVal c, hexVal d with
    | some x, some y, some z, some w => some (((x * 16 + y) * 16 + z) * 16 + w)
    | _, _, _, _ => none
  | _ => none

/-- The byte named by a one-character escape. -/
def simpleEscape (e : Nat) : Option Nat :=
  if e = 34 ∨ e = 92 ∨ e = 47 then some e
  else if e = 98 then some 8
  else if e = 102 then some 12
  else if e = 110 then some 10
  else if e = 114 then some 13
  else if e = 116 then some 9
  else none

/-- Put decoded bytes in front of the rest of a decoded string. -/
def consDecoded (pre : Bytes) (r : Option (Bytes × Bytes)) : Option (Bytes × Bytes) :=
  match r with
  | none => none
  | some (s, rest) => some (pre ++ s, rest)

/-- Scan and unquote a JSON string literal whose opening quote has been
read (scanner states `stateInString…` and `unquoteBytes`): the decoded Go
string and the input after the closing quote, or `none` on a syntax error.
Ill-formed UTF-8 and unpaired surrogates become U+FFFD. -/
def unquoteLoop : Nat → Bytes → Option (Bytes × Bytes)
  | 0, _ => none
  | _ + 1, [] => none
  | fuel + 1, c :: rest =>
    if c = 34 then some ([], rest)
    else if c = 92 then
      match rest with
      | [] => none
      | e :: rest1 =>
        if e = 117 then
          match getu4 (c :: rest) with
          | none => none
          | some rr =>
            let rest2 := rest1.drop 4
            if 0xD800 ≤ rr ∧ rr < 0xE000 then
              match getu4 rest2 with
              | some rr1 =>
                if rr < 0xDC00 ∧ 0xDC00 ≤ rr1 ∧ rr1 < 0xE000 then
                  consDecoded (encodeRune ((rr - 0xD800) * 1024 + (rr1 - 0xDC00) + 0x10000))
                    (unquoteLoop fuel (rest2.drop 6))
                else consDecoded (encodeRune 0xFFFD) (unquoteLoop fuel rest2)
              | none => consDecoded (encodeRune 0xFFFD) (unquoteLoop fuel rest2)
            else consDecoded (encodeRune rr) (unquoteLoop fuel rest2)
        else
          match simpleEscape e with
          | none => none
          | some b => consDecoded [b] (unquoteLoop fuel rest1)
    else if c < 0x20 then none
    else if c < 0x80 then consDecoded [c] (unquoteLoop fuel rest)
    else
      let d := decodeRune (c :: rest)
      consDecoded (encodeRune d.1) (unquoteLoop fuel ((c :: rest).drop d.2))

/-- Drop leading decimal digits. -/
def skipDigits : Bytes → Bytes
  | [] => []
  | c :: rest => if 48 ≤ c ∧ c ≤ 57 then skipDigits rest else c :: rest

/-- Exponent part of a JSON number (scanner states `stateE…`). -/
def scanExp (bs : Bytes) : Option Bytes :=
  match bs with
  | [] => some []
  | e :: r =>
    if e = 101 ∨ e = 69 then
      let r1 := match r with
        | [] => r
        | sg :: r2 => if sg = 43 ∨ sg = 45 then r2 else r
      match r1 with
      | [] => none
      | d :: r3 => if 48 ≤ d ∧ d ≤ 57 then some (skipDigits r3) else none
    else some bs

/-- Fraction part of a JSON number (scanner states `stateDot…`). -/
def scanFrac (bs : Bytes) : Option Bytes :=
  match bs with
  | 46 :: r =>
    match r with
    | [] => none
    | d :: r1 => if 48 ≤ d ∧ d ≤ 57 then scanExp (skipDigits r1) else none
  | _ => scanExp bs

/-- A JSON number (scanner states `stateNeg`, `state0`, `state1`): the
input after it. -/
def scanNumber (bs : Bytes) : Option Bytes :=
  let bs1 := match bs with
    | [] => bs
    | m :: r => if m = 45 then r else bs
  match bs1 with
  | [] => none
  | c :: r =>
    if c = 48 then scanFrac r
    else if 49 ≤ c ∧ c ≤ 57 then scanFrac (skipDigits r)
    else none

/-- What the value scanner is reading. -/
inductive ScanMode where
  | value
  | elems
  | members
  deriving DecidableEq, Repr

/-- The deepest nesting of arrays and objects the decoder accepts
(`maxNestingDepth` of package json). -/
def maxNestingDepth : Nat := 10000

/-- Syntax check of one JSON value (`.value`), of the rest of an array from
the start of an element (`.elems`) or of the rest of an object from the
start of a key (`.members`): the input after it, or `none` on a syntax
error. `depth` is the number of arrays and objects open around the value;
opening one more beyond `maxNestingDepth` is an error. One unit of fuel per
call; a call chain is at most twice as long as the input. -/
def skipJson : Nat → Nat → ScanMode → Bytes → Option Bytes
  | 0, _, _, _ => none
  | fuel + 1, depth, .value, bs =>
    match bs with
    | 34 :: r => (unquoteLoop (r.length + 1) r).map Prod.snd
    | 91 :: r =>
      if depth ≥ maxNestingDepth then none
      else
        match skipWs r with
        | 93 :: r1 => some r1
        | r1 => skipJson fuel (depth + 1) .elems r1
    | 123 :: r =>
      if depth ≥ maxNestingDepth then none
      else
        match skipWs r with
        | 125 :: r1 => some r1
        | r1 => skipJson fuel (depth + 1) .members r1
    | 116 :: 114 :: 117 :: 101 :: r => some r
    | 102 :: 97 :: 108 :: 115 :: 101 :: r => some r
    | 110 :: 117 :: 108 :: 108 :: r => some r
    | _ => scanNumber bs
  | fuel + 1, depth, .elems, bs =>
    match skipJson fuel depth .value bs with
    | none => none
    | some r =>
      match skipWs r with
      | 44 :: r1 => skipJson fuel depth .elems (skipWs r1)
      | 93 :: r1 => some r1
      | _ => none
  | fuel + 1, depth, .members, bs =>
    match bs with
    | 34 :: r =>
      match unquoteLoop (r.length + 1) r with
      | none => none
      | some (_, r1) =>
        match skipWs r1 with
        | 58 :: r2 =>
          match skipJson fuel depth .value (skipWs r2) with
          | none => none
          | some r3 =>
            match skipWs r3 with
            | 44 :: r4 => skipJson fuel depth .members (skipWs r4)
            | 125 :: r4 => some r4
            | _ => none
        | _ => none
    | _ => none

/-- ASCII upper-casing of one byte. -/
def upperByte (c : Nat) : Nat := if 97 ≤ c ∧ c ≤ 122 then c - 32 else c

/-- Whether an object key selects the field `Name`: an exact or a
case-insensitive match (package json `foldName`; none of `N`, `a`, `m`,
`e` has a non-ASCII case variant). -/
def matchesName (key : Bytes) : Bool := key.map upperByte == [78, 65, 77, 69]

/-- Decode the value of a member that selects `Name` into the string field
holding `cur`: a string is stored, `null` leaves the field, any other value
is skipped and recorded as a type error. -/
def decodeNameValue (F : Nat) (cur : Bytes) (bs : Bytes) : Option (Bytes × Bool × Bytes) :=
  match bs with
  | 34 :: r =>
    match unquoteLoop (r.length + 1) r with
    | none => none
    | some (s, r1) => some (s, false, r1)
  | 110 :: 117 :: 108 :: 108 :: r => some (cur, false, r)
  | _ =>
    match skipJson F 2 .value bs with
    | none => none
    | some r => some (cur, true, r)

/-- Decode the members of a JSON object into a `TodoList`, from the start
of a key: the field value, whether a type error was recorded, and the input
after the closing brace. -/
def decodeMembers (F : Nat) : Nat → Bytes → Bool → Bytes → Option (Bytes × Bool × Bytes)
  | 0, _, _, _ => none
  | fuel + 1, cur, flag, bs =>
    match bs with
    | 34 :: r =>
      match unquoteLoop (r.length + 1) r with
      | none => none
      | some (key, r1) =>
        match skipWs r1 with
        | 58 :: r2 =>
          match (if matchesName key then decodeNameValue F cur (skipWs r2)
                 else (skipJson F 2 .value (skipWs r2)).map fun r => (cur, false, r)) with
          | none => none
          | some (cur1, fl, r3) =>
            match skipWs r3 with
            | 44 :: r4 => decodeMembers F fuel cur1 (flag || fl) (skipWs r4)
            | 125 :: r4 => some (cur1, flag || fl, r4)
            | _ => none
        | _ => none
    | _ => none

/-- Decode one array element into a fresh `TodoList`: an object fills the
struct, `null` leaves the zero value, any other value is a type error. -/
def decodeElem (F : Nat) (bs : Bytes) : Option (TodoList × Bool × Bytes) :=
  match bs with
  | 123 :: r =>
    match skipWs r with
    | 125 :: r1 => some (⟨[]⟩, false, r1)
    | r1 =>
      match decodeMembers F F [] false r1 with
      | none => none
      | some (name, fl, r2) => some (⟨name⟩, fl, r2)
  | 110 :: 117 :: 108 :: 108 :: r => some (⟨[]⟩, false, r)
  | _ =>
    match skipJson F 1 .value bs with
    | none => none
    | some r => some (⟨[]⟩, true, r)

/-- Decode the elements of a non-empty JSON array, from the start of the
first element up to the closing bracket. -/
def decodeElems (F : Nat) : Nat → Bytes → Option (List TodoList × Bool × Bytes)
  | 0, _ => none
  | fuel + 1, bs =>
    match decodeElem F bs with
    | none => none
    | some (t, fl, r) =>
      match skipWs r with
      | 44 :: r1 =>
        match decodeElems F fuel (skipWs r1) with
        | none => none
        | some (ts, fl1, r2) => some (t :: ts, fl || fl1, r2)
      | 93 :: r1 => some ([t], fl, r1)
      | _ => none

/-- Go `json.Unmarshal(data, &todoLists)` with `todoLists` a nil
`[]TodoList`: the slice on success (`none` is the nil slice, left by a JSON
`null`), a syntax error for input that is not one JSON value, and otherwise
a type error when a value does not fit the Go type. -/
def jsonUnmarshalTodoLists (data : Bytes) : Except Error (Option (List TodoList)) :=
  let F := 2 * data.length + 2
  match skipWs data with
  | 91 :: r =>
    match (match skipWs r with
           | 93 :: r1 => some ([], false, r1)
           | r1 => decodeElems F F r1) with
    | none => .error .invalidInput
    | some (l, fl, rest) =>
      if skipWs rest ≠ [] then .error .invalidInput
      else if fl then .error .typeMismatch
      else .ok (some l)
  | 110 :: 117 :: 108 :: 108 :: r =>
    if skipWs r = [] then .ok none else .error .invalidInput
  | bs =>
    match skipJson F 0 .value bs with
    | none => .error .invalidInput
    | some r => if skipWs r = [] then .error .typeMismatch else .error .invalidInput

/-! ## File system -/

/-- A location, as the list of its path components from the working
directory; `[]` is the working directory itself, and a leading `..`
component names the directory above, stored like any other location. -/
abbrev Path := List Bytes

/-- What is stored at a location. -/
inductive Node where
  | dir
  | file (content : Bytes)
  deriving DecidableEq, Repr

/-- The file system: the stored locations, first match wins. The working
directory `[]` is a directory without being listed. -/
abbrev FS := List (Path × Node)

/-- The node at a location. -/
def fsLookup : FS → Path → Option Node
  | [], _ => none
  | (q, n) :: rest, p => if q = p then some n else fsLookup rest p

/-- Store a node at a location, replacing what is there. -/
def fsInsert (p : Path) (n : Node) : FS → FS
  | [] => [(p, n)]
  | (q, m) :: rest => if q = p then (q, n) :: rest else (q, m) :: fsInsert p n rest

/-- Whether a location exists. -/
def fsExists (fs : FS) (p : Path) : Bool := p = [] || (fsLookup fs p).isSome

/-- Whether a location is a directory. -/
def fsIsDir (fs : FS) (p : Path) : Bool := p = [] || fsLookup fs p = some .dir

/-- Whether `q` is an entry of the directory `p`. -/
def isEntryOf (p q : Path) : Bool := q ≠ [] && q.dropLast = p

/-- Why a new entry cannot be made at `p`, if so: the parent is missing or
is not a directory. -/
def parentError (fs : FS) (p : Path) : Option Error :=
  if fsIsDir fs p.dropLast then none
  else if fsExists fs p.dropLast then some .notDirectory
  else some .notExist

/-- Go `os.Stat`, its error only. -/
def osStat (fs : FS) (p : Path) : Option Error :=
  if fsExists fs p then none else some .notExist

/-- Go `os.Mkdir`. -/
def osMkdir (fs : FS) (p : Path) : Option Error × FS :=
  if fsExists fs p then (some .alreadyExists, fs)
  else
    match parentError fs p with
    | some e => (some e, fs)
    | none => (none, fsInsert p .dir fs)

/-- Go `os.OpenFile` with `O_CREATE` and without `O_EXCL` or `O_TRUNC`: an
existing file is opened as it is, a missing one is created empty. -/
def osOpenFileCreate (fs : FS) (p : Path) : Option Error × FS :=
  if p = [] then (some .isDirectory, fs)
  else
    match fsLookup fs p with
    | some (.file _) => (none, fs)
    | some .dir => (some .isDirectory, fs)
    | none =>
      match parentError fs p with
      | some e => (some e, fs)
      | none => (none, fsInsert p (.file []) fs)

/-- A `Write` on a file opened with `O_APPEND`: the data goes to the end. -/
def osAppend (fs : FS) (p : Path) (data : Bytes) : Option Error × FS :=
  match fsLookup fs p with
  | some (.file c) => (none, fsInsert p (.file (c ++ data)) fs)
  | some .dir => (some .isDirectory, fs)
  | none => (some .notExist, fs)

/-- Go `ioutil.WriteFile`: create or truncate, then write. -/
def osWriteFile (fs : FS) (p : Path) (data : Bytes) : Option Error × FS :=
  if p = [] then (some .isDirectory, fs)
  else
    match fsLookup fs p with
    | some (.file _) => (none, fsInsert p (.file data) fs)
    | some .dir => (some .isDirectory, fs)
    | none =>
      match parentError fs p with
      | some e => (some e, fs)
      | none => (none, fsInsert p (.file data) fs)

/-- Go `ioutil.ReadFile`. -/
def osReadFile (fs : FS) (p : Path) : Except Error Bytes :=
  if p = [] then .error .isDirectory
  else
    match fsLookup fs p with
    | some (.file c) => .ok c
    | some .dir => .error .isDirectory
    | none => .error .notExist

/-- The locations stored directly in the directory `p`. -/
def dirEntries (fs : FS) (p : Path) : List Path :=
  (fs.filter fun kv => isEntryOf p kv.1).map Prod.fst

/-- Go `ioutil.ReadDir`: the entries of a directory; on an error the list
is nil. -/
def osReadDir (fs : FS) (p : Path) : List Path × Option Error :=
  if fsIsDir fs p then (dirEntries fs p, none)
  else if fsExists fs p then ([], some .notDirectory)
  else ([], some .notExist)

/-- Go `strings.Split(s, sep)` for a one-byte separator. -/
def splitOn (sep : Nat) : Bytes → List Bytes
  | [] => [[]]
  | c :: rest =>
    if c = sep then [] :: splitOn sep rest
    else
      match splitOn sep rest with
      | [] => [[c]]
      | h :: t => (c :: h) :: t

/-- One component of a path being cleaned (`path.Clean`): empty and `.` are
dropped; `..` removes the component before it, and where there is none to
remove (at the top, or after another `..`) it is kept, as for a relative
path. -/
def cleanStep (acc : Path) (c : Bytes) : Path :=
  if c = [] ∨ c = [46] then acc
  else if c = [46, 46] then
    if acc = [] ∨ acc.getLast? = some [46, 46] then acc ++ [c] else acc.dropLast
  else acc ++ [c]

/-- Go `path.Join(base, elem)` (that is `path.Clean(base + "/" + elem)`)
for a `base` that is already resolved. -/
def joinPath (base : Path) (elem : Bytes) : Path :=
  (splitOn 47 elem).foldl cleanStep base

/-- A location as a slash-separated string. -/
def pathString : Path → Bytes
  | [] => []
  | [c] => c
  | c :: c2 :: cs => c ++ 47 :: pathString (c2 :: cs)

/-! ## The world: file system and git -/

/-- One run of the `git` child process: `git -C dir command args…`. -/
structure GitCall where
  dir : Path
  command : Bytes
  args : List Bytes
  deriving DecidableEq, Repr

/-- The state the program acts on. `gitLog` lists the `git` runs so far and
`commits` the calls of `Commit` so far, both oldest first; `gitOutcomes`
holds the outcome of each coming `git` run (`true` is exit status 0; runs
after the end of the list succeed), which the program neither sees nor
controls. -/
structure World where
  fs : FS
  gitLog : List GitCall
  commits : List (Path × Bytes)
  gitOutcomes : List Bool
  deriving DecidableEq, Repr

/-- Create a directory and its missing ancestors (what `git init` does for
its target), top down; `none` when a file is in the way. -/
def mkdirAll (fs : FS) : Path → Path → Option FS
  | _, [] => some fs
  | done, c :: rest =>
    match fsLookup fs (done ++ [c]) with
    | some (.file _) => none
    | some .dir => mkdirAll fs (done ++ [c]) rest
    | none => mkdirAll (fsInsert (done ++ [c]) .dir fs) (done ++ [c]) rest

/-- The effect of a successful `git` run on the modelled files: `init`
makes the target directory and its `.git`; the contents of `.git` are not
modelled, so `add` and `commit` change nothing here. -/
def gitEffect (fs : FS) (path : Path) (command : Bytes) (target : Path) : Option FS :=
  if command = lit "init" then
    match mkdirAll fs [] (path ++ target) with
    | none => none
    | some fs1 =>
      match fsLookup fs1 (path ++ target ++ [lit ".git"]) with
      | some (.file _) => none
      | some .dir => some fs1
      | none => some (fsInsert (path ++ target ++ [lit ".git"]) .dir fs1)
  else some fs

/-- Git command execution from a given path (`Git`); `target` is the
location named by the arguments of `init`. -/
def Git (path : Path) (command : Bytes) (args : List Bytes) (target : Path) (w : World) :
    Option Error × World :=
  let call : GitCall := ⟨path, command, args⟩
  let ok := w.gitOutcomes.headD true
  let w1 : World := ⟨w.fs, w.gitLog ++ [call], w.commits, w.gitOutcomes.tail⟩
  if ok then
    match gitEffect w.fs path command target with
    | none => (some .exitStatus, w1)
    | some fs1 => (none, ⟨fs1, w1.gitLog, w1.commits, w1.gitOutcomes⟩)
  else (some .exitStatus, w1)

/-- Commit all changes to Git (`Commit`). -/
def Commit (path : Path) (msg : Bytes) (w : World) : Option Error × World :=
  let w0 : World := ⟨w.fs, w.gitLog, w.commits ++ [(path, msg)], w.gitOutcomes⟩
  match Git path (lit "add") [lit "."] [] w0 with
  | (some err, w1) => (some err, w1)
  | (none, w1) => Git path (lit "commit") [lit "-m", msg] [] w1

/-! ## The program -/

/-- CreateTodoList command. -/
structure CreateTodoList where
  ID : Bytes
  Name : Bytes
  deriving DecidableEq, Repr

/-- A value of the `Event` interface: the `TodoListCreated` event, or a
value of any other type that implements the interface, given by what the
program can observe of it (its `reflect` type string, `getID()`,
`getName()` and the result of `json.Marshal`). -/
inductive Event where
  | TodoListCreated (ID : Bytes) (Name : Bytes)
  | other (typeString : Bytes) (ID : Bytes) (Name : Bytes) (json : Except Error Bytes)
  deriving DecidableEq, Repr

/-- Event getter `getID`. -/
def Event.getID : Event → Bytes
  | .TodoListCreated id _ => id
  | .other _ id _ _ => id

/-- Event getter `getName`. -/
def Event.getName : Event → Bytes
  | .TodoListCreated _ name => name
  | .other _ _ name _ => name

/-- Go `reflect.TypeOf(event).String()`. -/
def Event.typeString : Event → Bytes
  | .TodoListCreated _ _ => lit "main.TodoListCreated"
  | .other ts _ _ _ => ts

/-- Go `json.Marshal(event)`; a `TodoListCreated` is written as an object
with its two string fields. -/
def jsonMarshalEvent : Event → Except Error Bytes
  | .TodoListCreated id name =>
    .ok (123 :: (lit "\"ID\":" ++ appendString id ++ 44 :: (lit "\"Name\":"
      ++ appendString name ++ [125])))
  | .other _ _ _ json => json

/-- Go `json.Marshal(command)` for a `*CreateTodoList`. -/
def jsonMarshalCommand (c : CreateTodoList) : Bytes :=
  123 :: (lit "\"ID\":" ++ appendString c.ID ++ 44 :: (lit "\"Name\":"
    ++ appendString c.Name ++ [125]))

/-- The kind tag of an event: the last dot-separated part of its type
string (`cmdStrs[len(cmdStrs)-1]`). -/
def eventString (event : Event) : Bytes :=
  (splitOn 46 event.typeString).getLastD []

/-- The stream directory of an event (`streamDir` of `UpdateStream`). -/
def streamDir (repo : Path) (event : Event) : Path :=
  joinPath (repo ++ [lit "event-stream"]) event.getID

/-- The sequence number `UpdateStream` computes (`seqNum`). -/
def seqNum (repo : Path) (event : Event) (w : World) : Nat :=
  (osReadDir w.fs (streamDir repo event)).1.length + 1

/-- The name of a stream entry: `fmt.Sprintf("%06d", seqNum)+"_"+eventString`. -/
def entryName (n : Nat) (kind : Bytes) : Bytes := sprintf06d n ++ 95 :: kind

/-- The location `UpdateStream` writes to (`fileName`). -/
def streamFile (repo : Path) (event : Event) (w : World) : Path :=
  joinPath (streamDir repo event) (entryName (seqNum repo event w) (eventString event))

/-- A world with another file system. -/
def World.withFs (w : World) (fs : FS) : World := ⟨fs, w.gitLog, w.commits, w.gitOutcomes⟩

/-- InitStorage creates a Git repository, as well as event-stream &
projection files. -/
def InitStorage (repo : Path) (w : World) : Option Error × World :=
  match osStat w.fs repo with
  | none => (none, w)
  | some _ =>
    match Git [] (lit "init") [pathString repo] repo w with
    | (some err, w1) => (some err, w1)
    | (none, w1) =>
      match osMkdir w1.fs (repo ++ [lit "event-stream"]) with
      | (some err, fs2) => (some err, w1.withFs fs2)
      | (none, fs2) =>
        match osMkdir fs2 (repo ++ [lit "projections"]) with
        | (some err, fs3) => (some err, w1.withFs fs3)
        | (none, fs3) =>
          match osOpenFileCreate fs3 (repo ++ [lit "projections", lit ".gitignore"]) with
          | (some err, fs4) => (some err, w1.withFs fs4)
          | (none, fs4) =>
            match osOpenFileCreate fs4 (repo ++ [lit "event-stream", lit ".gitignore"]) with
            | (some err, fs5) => (some err, w1.withFs fs5)
            | (none, fs5) =>
              match osWriteFile fs5 (repo ++ [lit "projections", lit "todoLists"]) (lit "[]") with
              | (some err, fs6) => (some err, w1.withFs fs6)
              | (none, fs6) =>
                match osWriteFile fs6 (repo ++ [lit "projections", lit "TodoListsCount"])
                    (lit "0") with
                | (some err, fs7) => (some err, w1.withFs fs7)
                | (none, fs7) => Commit repo (lit "Initial commit") (w1.withFs fs7)

/-- UpdateStream appends an event to an event stream: the returned file
name and error, and the world after the call. -/
def UpdateStream (repo : Path) (event : Event) (w : World) : (Bytes × Option Error) × World :=
  let dir := streamDir repo event
  let dirs := (osReadDir w.fs dir).1
  match (if dirs.length = 0 then osMkdir w.fs dir else (none, w.fs)) with
  | (some err, fs1) => (([], some err), w.withFs fs1)
  | (none, fs1) =>
    let fileName := joinPath dir (entryName (dirs.length + 1) (eventString event))
    match osOpenFileCreate fs1 fileName with
    | (some err, fs2) => ((pathString fileName, some err), w.withFs fs2)
    | (none, fs2) =>
      match jsonMarshalEvent event with
      | .error err => ((pathString fileName, some err), w.withFs fs2)
      | .ok serializedBytes =>
        match osAppend fs2 fileName serializedBytes with
        | (some err, fs3) => ((pathString fileName, some err), w.withFs fs3)
        | (none, fs3) => ((pathString fileName, none), w.withFs fs3)

/-- UpdateStreamIndex keeps track of the most recent event. -/
def UpdateStreamIndex (repo : Path) (eventName : Bytes) (w : World) : Option Error × World :=
  match osOpenFileCreate w.fs (repo ++ [lit "event-stream", lit "index"]) with
  | (some err, fs1) => (some err, w.withFs fs1)
  | (none, fs1) =>
    match osAppend fs1 (repo ++ [lit "event-stream", lit "index"]) (eventName ++ [10]) with
    | (err, fs2) => (err, w.withFs fs2)

/-- ReadTodoListsProjection parses the todoLists projection. -/
def ReadTodoListsProjection (repo : Path) (w : World) : Except Error (Option (List TodoList)) :=
  match osReadFile w.fs (repo ++ [lit "projections", lit "todoLists"]) with
  | .error err => .error err
  | .ok f => jsonUnmarshalTodoLists f

/-- ReadTodoListsCountProjection parses the TodoListsCount projection. -/
def ReadTodoListsCountProjection (repo : Path) (w : World) : Except Error Int :=
  match osReadFile w.fs (repo ++ [lit "projections", lit "TodoListsCount"]) with
  | .error err => .error err
  | .ok f => Atoi f

/-- Go `append(todos, todo)` on a possibly nil slice. -/
def sliceAppend (todos : Option (List TodoList)) (todo : TodoList) : Option (List TodoList) :=
  some (todos.getD [] ++ [todo])

/-- UpdateListOfTodos updates the todoLists projection. -/
def UpdateListOfTodos (repo : Path) (event : Event) (w : World) : Option Error × World :=
  match ReadTodoListsProjection repo w with
  | .error err => (some err, w)
  | .ok todos =>
    let todo : TodoList := ⟨event.getName⟩
    let updatedTodos := jsonMarshalTodoLists (sliceAppend todos todo)
    match osWriteFile w.fs (repo ++ [lit "projections", lit "todoLists"]) updatedTodos with
    | (err, fs1) => (err, w.withFs fs1)

/-- UpdateCountOfTodoLists updates (increments) the TodoListsCount projection. -/
def UpdateCountOfTodoLists (repo : Path) (_event : Event) (w : World) : Option Error × World :=
  match ReadTodoListsCountProjection repo w with
  | .error err => (some err, w)
  | .ok count =>
    let updatedCount := Itoa (wrapInt64 (count + 1))
    match osWriteFile w.fs (repo ++ [lit "projections", lit "TodoListsCount"]) updatedCount with
    | (err, fs1) => (err, w.withFs fs1)

/-- Handle an event, update read models. -/
def Handle (repo : Path) (event : Event) (w : World) : Option Error × World :=
  match event with
  | .TodoListCreated _ _ =>
    match UpdateListOfTodos repo event w with
    | (some err, w1) => (some err, w1)
    | (none, w1) =>
      match UpdateCountOfTodoLists repo event w1 with
      | (some err, w2) => (some err, w2)
      | (none, w2) => (none, w2)
  | .other _ _ _ _ => (none, w)

/-- StoreEvent stores an event on an event stream. -/
def StoreEvent (repo : Path) (event : Event) (w : World) : Option Error × World :=
  match UpdateStream repo event w with
  | ((_, some err), w1) => (some err, w1)
  | ((name, none), w1) =>
    match UpdateStreamIndex repo name w1 with
    | (some err, w2) => (some err, w2)
    | (none, w2) =>
      match Handle repo event w2 with
      | (some err, w3) => (some err, w3)
      | (none, w3) => Commit repo event.getID w3

/-- Validate CreateTodoList command. -/
def CreateTodoList.Validate (command : CreateTodoList) (_repo : Path) : Option Error :=
  if command.Name = [] then some .validationFailed else none

/-- What an HTTP handler sends back. -/
structure Response where
  status : Nat
  body : Bytes
  deriving DecidableEq, Repr

/-- CreateTodoListHandler handles HTTP requests for the createTodoList
command; `guid` is the result of `GUID()` and `name` of
`r.FormValue("name")`. -/
def CreateTodoListHandler (repo : Path) (guid name : Bytes) (w : World) : Response × World :=
  let command : CreateTodoList := ⟨guid, name⟩
  match command.Validate repo with
  | some _ => (⟨400, lit "Command validation failed\n"⟩, w)
  | none =>
    let event := Event.TodoListCreated command.ID command.Name
    match StoreEvent repo event w with
    | (some _, w1) => (⟨500, lit "Internal Server Error\n"⟩, w1)
    | (none, w1) => (⟨200, jsonMarshalCommand command⟩, w1)

/-! ## Predicates used in the statements -/

/-- The file system after a step holds every location it held before. -/
def FsGrows (fs fs1 : FS) : Prop := ∀ q, fsExists fs q = true → fsExists fs1 q = true

/-- Every stored location has a parent that is a directory, as in any real
file system. -/
def wellFormed (fs : FS) : Bool :=
  fs.all fun kv => kv.1 ≠ [] && fsIsDir fs kv.1.dropLast

/-- The value of a string of decimal digits. -/
def digitsValue (ds : Bytes) : Nat := ds.foldl (fun acc d => acc * 10 + (d - 48)) 0

/-- One record of a run of `UpdateStream` calls: the sequence number the
call computed, the file name it returned and its error. -/
structure StreamResult where
  seq : Nat
  name : Bytes
  err : Option Error
  deriving DecidableEq, Repr

/-- Sequential calls of `UpdateStream`, one per event, each on the world
the call before it left: the records of the calls and the final world. -/
def UpdateStreamAll (repo : Path) : List Event → World → List StreamResult × World
  | [], w => ([], w)
  | e :: es, w =>
    let r := UpdateStream repo e w
    let rs := UpdateStreamAll repo es r.2
    (⟨seqNum repo e w, r.1.1, r.1.2⟩ :: rs.1, rs.2)

/-- The repository root used in the worked examples (`const repo = "storage"`). -/
def exampleRepo : Path := [lit "storage"]

/-- The world before anything is stored, with every `git` run succeeding. -/
def emptyWorld : World := ⟨[], [], [], []⟩

/-- The world after `InitStorage` on the empty world. -/
def initialWorld : World := (InitStorage exampleRepo emptyWorld).2

/-- The state of a stream directory `D` after `k` appends to a stream that
did not exist before: `D` is absent before the first append and a directory
after it, every location stored at or below `D` is `D` itself or a file
directly in `D` whose name starts with the padded number of one of the `k`
appends and an underscore, and `D` has `k` entries. -/
def StreamInv (fs : FS) (D : Path) (k : Nat) : Prop :=
  D ≠ [] ∧ (k = 0 → fsExists fs D = false) ∧ (0 < k → fsIsDir fs D = true) ∧
  (∀ sfx n, fsLookup fs (D ++ sfx) = some n →
    sfx = [] ∨ ∃ j x content, 1 ≤ j ∧ j ≤ k ∧ sfx = [sprintf06d j ++ 95 :: x] ∧
      n = .file content) ∧
  (dirEntries fs D).length = k

/-- The state of a stream directory `D` inside an append, once the
directory is known to be there: as `StreamInv`, with `D` a directory. -/
def StreamMid (fs : FS) (D : Path) (k : Nat) : Prop :=
  D ≠ [] ∧ fsIsDir fs D = true ∧
  (∀ sfx n, fsLookup fs (D ++ sfx) = some n →
    sfx = [] ∨ ∃ j x content, 1 ≤ j ∧ j ≤ k ∧ sfx = [sprintf06d j ++ 95 :: x] ∧
      n = .file content) ∧
  (dirEntries fs D).length = k

/-! ## Worked examples -/

/-- The event of the end-to-end scenario. -/
def exampleEvent : Event := .TodoListCreated (lit "id1") (lit "Groceries")

/-- A `TodoListCreated` event whose name is the single byte `0xFF`, which
is not UTF-8. -/
def badNameEvent : Event := .TodoListCreated (lit "id1") [0xFF]

/-- An event of another type that implements `Event`. -/
def otherEvent : Event :=
  .other (lit "main.TodoListRenamed") (lit "id1") (lit "Chores") (.ok (lit "null"))

/-- The initial world with the count projection at the largest `int`. -/
def maxCountWorld : World :=
  initialWorld.withFs (fsInsert (exampleRepo ++ [lit "projections", lit "TodoListsCount"])
    (.file (lit "9223372036854775807")) initialWorld.fs)

/-- The initial world with a directory in the place of the stream index. -/
def indexDirWorld : World :=
  initialWorld.withFs (fsInsert (exampleRepo ++ [lit "event-stream", lit "index"]) .dir
    initialWorld.fs)

/-- A world with the directory of the streams and without projections. -/
def noProjectionWorld : World :=
  ⟨[([lit "storage"], .dir), ([lit "storage", lit "event-stream"], .dir)], [], [], []⟩

/-- The initial world with an empty stream directory for `id1`. -/
def emptyStreamWorld : World :=
  initialWorld.withFs (fsInsert (exampleRepo ++ [lit "event-stream", lit "id1"]) .dir
    initialWorld.fs)

/-- The stream of `id1` holding the single entry `000002_TodoListCreated`. -/
def staleEntryWorld : World :=
  emptyStreamWorld.withFs (fsInsert
    (exampleRepo ++ [lit "event-stream", lit "id1", lit "000002_TodoListCreated"])
    (.file (lit "old")) emptyStreamWorld.fs)


/-! ## File-system facts -/

theorem fsLookup_fsInsert_self (p : Path) (n : Node) (fs : FS) :
    fsLookup (fsInsert p n fs) p = some n := by
  induction fs with
  | nil => simp [fsInsert, fsLookup]
  | cons kv rest ih =>
    obtain ⟨q, m⟩ := kv
    by_cases h : q = p
    · simp [fsInsert, fsLookup, h]
    · simp [fsInsert, fsLookup, h, ih]

theorem fsLookup_fsInsert_ne (p q : Path) (n : Node) (fs : FS) (h : q ≠ p) :
    fsLookup (fsInsert p n fs) q = fsLookup fs q := by
  induction fs with
  | nil => simp [fsInsert, fsLookup, Ne.symm h]
  | cons kv rest ih =>
    obtain ⟨r, m⟩ := kv
    by_cases h1 : r = p
    · subst h1
      simp [fsInsert, fsLookup, Ne.symm h]
    · by_cases h2 : r = q
      · subst h2
        simp [fsInsert, fsLookup, h1]
      · simp [fsInsert, fsLookup, h1, h2, ih]

theorem fsExists_fsInsert (p q : Path) (n : Node) (fs : FS) (h : fsExists fs q = true) :
    fsExists (fsInsert p n fs) q = true := by
  by_cases hq : q = p
  · subst hq
    simp [fsExists, fsLookup_fsInsert_self]
  · simpa [fsExists, fsLookup_fsInsert_ne p q n fs hq] using h

theorem fsExists_fsInsert_self (p : Path) (n : Node) (fs : FS) :
    fsExists (fsInsert p n fs) p = true := by
  simp [fsExists, fsLookup_fsInsert_self]


theorem FsGrows.refl (fs : FS) : FsGrows fs fs := fun _ h => h

theorem FsGrows.trans {a b c : FS} (h1 : FsGrows a b) (h2 : FsGrows b c) : FsGrows a c :=
  fun q h => h2 q (h1 q h)

theorem FsGrows.insert (p : Path) (n : Node) (fs : FS) : FsGrows fs (fsInsert p n fs) :=
  fun q h => fsExists_fsInsert p q n fs h

theorem osMkdir_grows (fs : FS) (p : Path) : FsGrows fs (osMkdir fs p).2 := by
  unfold osMkdir
  split
  · exact FsGrows.refl fs
  · split
    · exact FsGrows.refl fs
    · exact FsGrows.insert _ _ _

theorem osOpenFileCreate_grows (fs : FS) (p : Path) : FsGrows fs (osOpenFileCreate fs p).2 := by
  unfold osOpenFileCreate
  split
  · exact FsGrows.refl fs
  · split
    · exact FsGrows.refl fs
    · exact FsGrows.refl fs
    · split
      · exact FsGrows.refl fs
      · exact FsGrows.insert _ _ _

theorem osWriteFile_grows (fs : FS) (p : Path) (d : Bytes) : FsGrows fs (osWriteFile fs p d).2 := by
  unfold osWriteFile
  split
  · exact FsGrows.refl fs
  · split
    · exact FsGrows.insert _ _ _
    · exact FsGrows.refl fs
    · split
      · exact FsGrows.refl fs
      · exact FsGrows.insert _ _ _

theorem osAppend_grows (fs : FS) (p : Path) (d : Bytes) : FsGrows fs (osAppend fs p d).2 := by
  unfold osAppend
  split
  · exact FsGrows.insert _ _ _
  · exact FsGrows.refl fs
  · exact FsGrows.refl fs

theorem mkdirAll_spec (rest : Path) : ∀ (fs : FS) (done : Path) (fs1 : FS),
    mkdirAll fs done rest = some fs1 →
    FsGrows fs fs1 ∧ (rest ≠ [] → fsExists fs1 (done ++ rest) = true) := by
  induction rest with
  | nil =>
    intro fs done fs1 h
    simp only [mkdirAll, Option.some.injEq] at h
    subst h
    exact ⟨FsGrows.refl _, fun h => absurd rfl h⟩
  | cons c rest ih =>
    intro fs done fs1 h
    simp only [mkdirAll] at h
    split at h
    · exact absurd h (by simp)
    · rename_i hl
      obtain ⟨g, e⟩ := ih fs (done ++ [c]) fs1 h
      refine ⟨g, fun _ => ?_⟩
      by_cases hr : rest = []
      · subst hr
        apply g
        simp [fsExists, hl]
      · simpa using e hr
    · obtain ⟨g, e⟩ := ih _ (done ++ [c]) fs1 h
      refine ⟨(FsGrows.insert _ _ _).trans g, fun _ => ?_⟩
      by_cases hr : rest = []
      · subst hr
        apply g
        exact fsExists_fsInsert_self _ _ _
      · simpa using e hr

/-- A successful `git init` leaves its target in place. -/
theorem Git_init_exists (args : List Bytes) (repo : Path) (w w1 : World)
    (h : Git [] (lit "init") args repo w = (none, w1)) (hr : repo ≠ []) :
    fsExists w1.fs repo = true := by
  unfold Git at h
  simp only at h
  split at h
  · split at h
    · simp at h
    · rename_i fs1 he
      simp only [Prod.mk.injEq, true_and] at h
      subst h
      simp only [gitEffect, if_true, List.nil_append] at he
      split at he
      · simp at he
      · rename_i fs2 hm
        have hs := mkdirAll_spec repo w.fs [] fs2 hm
        have hex : fsExists fs2 repo = true := by simpa using hs.2 hr
        split at he
        · simp at he
        · simp only [Option.some.injEq] at he
          subst he; exact hex
        · simp only [Option.some.injEq] at he
          subst he; exact fsExists_fsInsert _ _ _ _ hex
  · simp at h

/-- Runs of `git add` and `git commit` leave the modelled files alone. -/
theorem Git_fs (path : Path) (command : Bytes) (args : List Bytes) (target : Path) (w : World)
    (hc : command ≠ lit "init") : (Git path command args target w).2.fs = w.fs := by
  unfold Git
  simp only [gitEffect, if_neg hc]
  split <;> rfl

theorem Commit_fs (path : Path) (msg : Bytes) (w : World) : (Commit path msg w).2.fs = w.fs := by
  unfold Commit
  simp only
  split
  · rename_i err w1 heq
    have := Git_fs path (lit "add") [lit "."] [] ⟨w.fs, w.gitLog, w.commits ++ [(path, msg)], w.gitOutcomes⟩ (by decide)
    rw [heq] at this; exact this
  · rename_i w1 heq
    have h1 := Git_fs path (lit "add") [lit "."] [] ⟨w.fs, w.gitLog, w.commits ++ [(path, msg)], w.gitOutcomes⟩ (by decide)
    rw [heq] at h1
    rw [Git_fs _ _ _ _ _ (by decide)]; exact h1

theorem InitStorage_existing (repo : Path) (w : World) (h : fsExists w.fs repo = true) :
    InitStorage repo w = (none, w) := by
  simp [InitStorage, osStat, h]

/-- After a successful `InitStorage` the root exists. -/
theorem InitStorage_ok_exists (repo : Path) (w w1 : World)
    (h : InitStorage repo w = (none, w1)) : fsExists w1.fs repo = true := by
  unfold InitStorage at h
  split at h
  · rename_i hs
    simp only [Prod.mk.injEq, true_and] at h
    subst h
    simpa [osStat] using hs
  · rename_i e hs
    have hr : repo ≠ [] := by
      intro h0; subst h0; simp [osStat, fsExists] at hs
    split at h
    · simp at h
    · rename_i wg hg
      have h0 := Git_init_exists _ repo w wg hg hr
      split at h
      · simp at h
      · rename_i fs2 h2
        have g2 := osMkdir_grows wg.fs (repo ++ [lit "event-stream"])
        rw [h2] at g2
        split at h
        · simp at h
        · rename_i fs3 h3
          have g3 := osMkdir_grows fs2 (repo ++ [lit "projections"])
          rw [h3] at g3
          split at h
          · simp at h
          · rename_i fs4 h4
            have g4 := osOpenFileCreate_grows fs3 (repo ++ [lit "projections", lit ".gitignore"])
            rw [h4] at g4
            split at h
            · simp at h
            · rename_i fs5 h5
              have g5 := osOpenFileCreate_grows fs4 (repo ++ [lit "event-stream", lit ".gitignore"])
              rw [h5] at g5
              split at h
              · simp at h
              · rename_i fs6 h6
                have g6 := osWriteFile_grows fs5 (repo ++ [lit "projections", lit "todoLists"]) (lit "[]")
                rw [h6] at g6
                split at h
                · simp at h
                · rename_i fs7 h7
                  have g7 := osWriteFile_grows fs6 (repo ++ [lit "projections", lit "TodoListsCount"]) (lit "0")
                  rw [h7] at g7
                  have hc := Commit_fs repo (lit "Initial commit") (wg.withFs fs7)
                  rw [h] at hc
                  have hc1 : w1.fs = fs7 := hc
                  rw [hc1]
                  exact g7 _ (g6 _ (g5 _ (g4 _ (g3 _ (g2 _ h0)))))


/-- C3: `InitStorage` is idempotent. In every state in which the root
exists it returns nil and leaves the world as it is (no file or directory
changed, no `git` run, no `Commit` call); so after a first call that
succeeded, a second call returns nil, changes nothing, and both projections
read as after the first call. -/
theorem InitStorage_idempotent (repo : Path) (w : World) :
    (fsExists w.fs repo = true →
      InitStorage repo w = (none, w)) ∧
    ((InitStorage repo w).1 = none →
      InitStorage repo (InitStorage repo w).2 = (none, (InitStorage repo w).2) ∧
      ReadTodoListsProjection repo (InitStorage repo (InitStorage repo w).2).2
        = ReadTodoListsProjection repo (InitStorage repo w).2 ∧
      ReadTodoListsCountProjection repo (InitStorage repo (InitStorage repo w).2).2
        = ReadTodoListsCountProjection repo (InitStorage repo w).2) := by
  refine ⟨InitStorage_existing repo w, fun h => ?_⟩
  have h1 : InitStorage repo w = (none, (InitStorage repo w).2) := by
    rw [← h]
  have h2 := InitStorage_existing repo _ (InitStorage_ok_exists repo w _ h1)
  exact ⟨h2, by rw [h2], by rw [h2]⟩


/-! ## Frame facts: what the storage steps leave alone -/

theorem withFs_commits (w : World) (fs : FS) : (w.withFs fs).commits = w.commits := rfl
theorem withFs_gitLog (w : World) (fs : FS) : (w.withFs fs).gitLog = w.gitLog := rfl
theorem withFs_fs (w : World) (fs : FS) : (w.withFs fs).fs = fs := rfl
theorem withFs_self (w : World) : w.withFs w.fs = w := rfl

/-- No `git` run and no `Commit` call is made by `UpdateStream`. -/
theorem UpdateStream_git (repo : Path) (event : Event) (w : World) :
    (UpdateStream repo event w).2.commits = w.commits ∧
    (UpdateStream repo event w).2.gitLog = w.gitLog := by
  unfold UpdateStream
  simp only
  split
  · exact ⟨rfl, rfl⟩
  · split
    · exact ⟨rfl, rfl⟩
    · split
      · exact ⟨rfl, rfl⟩
      · split <;> exact ⟨rfl, rfl⟩

/-- No `git` run and no `Commit` call is made by `UpdateStreamIndex`. -/
theorem UpdateStreamIndex_git (repo : Path) (name : Bytes) (w : World) :
    (UpdateStreamIndex repo name w).2.commits = w.commits ∧
    (UpdateStreamIndex repo name w).2.gitLog = w.gitLog := by
  unfold UpdateStreamIndex
  split
  · exact ⟨rfl, rfl⟩
  · exact ⟨rfl, rfl⟩

theorem UpdateListOfTodos_git (repo : Path) (event : Event) (w : World) :
    (UpdateListOfTodos repo event w).2.commits = w.commits ∧
    (UpdateListOfTodos repo event w).2.gitLog = w.gitLog := by
  unfold UpdateListOfTodos
  split <;> exact ⟨rfl, rfl⟩

theorem UpdateCountOfTodoLists_git (repo : Path) (event : Event) (w : World) :
    (UpdateCountOfTodoLists repo event w).2.commits = w.commits ∧
    (UpdateCountOfTodoLists repo event w).2.gitLog = w.gitLog := by
  unfold UpdateCountOfTodoLists
  split <;> exact ⟨rfl, rfl⟩

/-- No `git` run and no `Commit` call is made by `Handle`. -/
theorem Handle_git (repo : Path) (event : Event) (w : World) :
    (Handle repo event w).2.commits = w.commits ∧
    (Handle repo event w).2.gitLog = w.gitLog := by
  cases event with
  | other ts id name json => exact ⟨rfl, rfl⟩
  | TodoListCreated id name =>
    simp only [Handle]
    have h1 := UpdateListOfTodos_git repo (.TodoListCreated id name) w
    split
    · rename_i err w1 heq
      rw [heq] at h1; exact h1
    · rename_i w1 heq
      rw [heq] at h1
      have h2 := UpdateCountOfTodoLists_git repo (.TodoListCreated id name) w1
      split
      · rename_i err w2 heq2
        rw [heq2] at h2; exact ⟨h2.1.trans h1.1, h2.2.trans h1.2⟩
      · rename_i w2 heq2
        rw [heq2] at h2; exact ⟨h2.1.trans h1.1, h2.2.trans h1.2⟩

/-- The record of `Commit` calls is kept by `Git`. -/
theorem Git_commits (path : Path) (command : Bytes) (args : List Bytes) (target : Path)
    (w : World) : (Git path command args target w).2.commits = w.commits := by
  unfold Git
  simp only
  split
  · split <;> rfl
  · rfl

/-- Exactly one call is recorded by `Commit`, with its path and message. -/
theorem Commit_commits (path : Path) (msg : Bytes) (w : World) :
    (Commit path msg w).2.commits = w.commits ++ [(path, msg)] := by
  unfold Commit
  simp only
  split
  · rename_i err w1 heq
    have := Git_commits path (lit "add") [lit "."] [] ⟨w.fs, w.gitLog, w.commits ++ [(path, msg)], w.gitOutcomes⟩
    rw [heq] at this; exact this
  · rename_i w1 heq
    have h1 := Git_commits path (lit "add") [lit "."] [] ⟨w.fs, w.gitLog, w.commits ++ [(path, msg)], w.gitOutcomes⟩
    rw [heq] at h1
    rw [Git_commits]; exact h1

/-- C5: `StoreEvent` is fail-fast. When `UpdateStream`,
`UpdateStreamIndex` or `Handle` returns an error, `StoreEvent` returns that
error with the world as the failing step left it, and no `Commit` call and
no `git` run has been made; when all three succeed, `StoreEvent` is the
result of `Commit` with the event's identifier as the message, and exactly
one `Commit` call, with that message, has been recorded. -/
theorem StoreEvent_fail_fast (repo : Path) (event : Event) (w : World) :
    (∀ name err w1, UpdateStream repo event w = ((name, some err), w1) →
      StoreEvent repo event w = (some err, w1) ∧ w1.commits = w.commits ∧ w1.gitLog = w.gitLog) ∧
    (∀ name w1 err w2, UpdateStream repo event w = ((name, none), w1) →
      UpdateStreamIndex repo name w1 = (some err, w2) →
      StoreEvent repo event w = (some err, w2) ∧ w2.commits = w.commits ∧ w2.gitLog = w.gitLog) ∧
    (∀ name w1 w2 err w3, UpdateStream repo event w = ((name, none), w1) →
      UpdateStreamIndex repo name w1 = (none, w2) → Handle repo event w2 = (some err, w3) →
      StoreEvent repo event w = (some err, w3) ∧ w3.commits = w.commits ∧ w3.gitLog = w.gitLog) ∧
    (∀ name w1 w2 w3, UpdateStream repo event w = ((name, none), w1) →
      UpdateStreamIndex repo name w1 = (none, w2) → Handle repo event w2 = (none, w3) →
      StoreEvent repo event w = Commit repo event.getID w3 ∧
      (StoreEvent repo event w).2.commits = w.commits ++ [(repo, event.getID)]) := by
  refine ⟨?_, ?_, ?_, ?_⟩
  · intro name err w1 h1
    have g1 := UpdateStream_git repo event w
    rw [h1] at g1
    refine ⟨?_, g1.1, g1.2⟩
    simp only [StoreEvent, h1]
  · intro name w1 err w2 h1 h2
    have g1 := UpdateStream_git repo event w
    have g2 := UpdateStreamIndex_git repo name w1
    rw [h1] at g1; rw [h2] at g2
    refine ⟨?_, g2.1.trans g1.1, g2.2.trans g1.2⟩
    simp only [StoreEvent, h1, h2]
  · intro name w1 w2 err w3 h1 h2 h3
    have g1 := UpdateStream_git repo event w
    have g2 := UpdateStreamIndex_git repo name w1
    have g3 := Handle_git repo event w2
    rw [h1] at g1; rw [h2] at g2; rw [h3] at g3
    refine ⟨?_, g3.1.trans (g2.1.trans g1.1), g3.2.trans (g2.2.trans g1.2)⟩
    simp only [StoreEvent, h1, h2, h3]
  · intro name w1 w2 w3 h1 h2 h3
    have g1 := UpdateStream_git repo event w
    have g2 := UpdateStreamIndex_git repo name w1
    have g3 := Handle_git repo event w2
    rw [h1] at g1; rw [h2] at g2; rw [h3] at g3
    have hs : StoreEvent repo event w = Commit repo event.getID w3 := by
      simp only [StoreEvent, h1, h2, h3]
    refine ⟨hs, ?_⟩
    rw [hs, Commit_commits, g3.1, g2.1, g1.1]

/-- C6: for every event that is not a `TodoListCreated`, `Handle` returns
nil and leaves the world, so both projections, as it is. -/
theorem Handle_unhandled_noop (repo : Path) (event : Event) (w : World)
    (h : ∀ id name, event ≠ .TodoListCreated id name) : Handle repo event w = (none, w) := by
  cases event with
  | TodoListCreated id name => exact absurd rfl (h id name)
  | other ts id name json => rfl

/-- C8: `Validate` returns an error exactly when the name is empty, and
`CreateTodoListHandler` answers an empty name with status 400 and leaves
the world as it is: no event, stream file, index line, projection change,
`git` run or `Commit` call. -/
theorem Validate_rejects_empty (command : CreateTodoList) (repo : Path) (guid : Bytes)
    (w : World) :
    ((command.Validate repo ≠ none) ↔ command.Name = []) ∧
    CreateTodoListHandler repo guid [] w = (⟨400, lit "Command validation failed\n"⟩, w) := by
  constructor
  · unfold CreateTodoList.Validate
    by_cases h : command.Name = [] <;> simp [h]
  · rfl



/-! ## Decimal rendering -/

theorem digitsAux_acc (fuel : Nat) : ∀ (n : Nat) (acc : Bytes),
    digitsAux fuel n acc = digitsAux fuel n [] ++ acc := by
  induction fuel with
  | zero => intro n acc; simp [digitsAux]
  | succ f ih =>
    intro n acc
    simp only [digitsAux]
    split
    · simp
    · rw [ih (n / 10) ((48 + n % 10) :: acc), ih (n / 10) [48 + n % 10]]
      simp

theorem digitsAux_fuel (fuel : Nat) : ∀ (n : Nat) (acc : Bytes), n < fuel →
    digitsAux fuel n acc = digitsAux (n + 1) n acc := by
  induction fuel using Nat.strong_induction_on with
  | _ fuel ih =>
    intro n acc hn
    cases fuel with
    | zero => omega
    | succ f =>
      simp only [digitsAux]
      split
      · rfl
      · rename_i h10
        have h1 : n / 10 < n := by omega
        rw [ih f (by omega) (n / 10) _ (by omega)]
        by_cases hf : n = f
        · subst hf
          rw [ih n (by omega) (n / 10) _ h1]
        · rw [ih n (by omega) (n / 10) _ h1]

theorem formatNat_small (n : Nat) (h : n < 10) : formatNat n = [48 + n] := by
  simp [formatNat, digitsAux, h]

theorem formatNat_step (n : Nat) (h : 10 ≤ n) :
    formatNat n = formatNat (n / 10) ++ [48 + n % 10] := by
  have h1 : ¬ n < 10 := by omega
  unfold formatNat
  rw [show digitsAux (n + 1) n [] = digitsAux n (n / 10) [48 + n % 10] by
    simp [digitsAux, h1]]
  rw [digitsAux_fuel n (n / 10) _ (by omega), digitsAux_acc]

/-- The rendering of a number below one million, digit by digit. -/
theorem sprintf06d_six (n : Nat) (h : n ≤ 999999) :
    sprintf06d n = [48 + n / 100000, 48 + n / 10000 % 10, 48 + n / 1000 % 10,
      48 + n / 100 % 10, 48 + n / 10 % 10, 48 + n % 10] := by
  unfold sprintf06d
  by_cases h1 : n < 10
  · rw [formatNat_small n h1]
    show [48, 48, 48, 48, 48, 48 + n] = _
    simp only [List.cons.injEq, and_true]
    repeat' apply And.intro
    all_goals omega
  · rw [formatNat_step n (by omega)]
    by_cases h2 : n / 10 < 10
    · rw [formatNat_small _ h2]
      show [48, 48, 48, 48, 48 + n / 10, 48 + n % 10] = _
      simp only [List.cons.injEq, and_true]
      repeat' apply And.intro
      all_goals omega
    · rw [formatNat_step _ (by omega)]
      by_cases h3 : n / 10 / 10 < 10
      · rw [formatNat_small _ h3]
        show [48, 48, 48, 48 + n / 10 / 10, 48 + n / 10 % 10, 48 + n % 10] = _
        simp only [List.cons.injEq, and_true]
        repeat' apply And.intro
        all_goals omega
      · rw [formatNat_step _ (by omega)]
        by_cases h4 : n / 10 / 10 / 10 < 10
        · rw [formatNat_small _ h4]
          show [48, 48, 48 + n / 10 / 10 / 10, 48 + n / 10 / 10 % 10, 48 + n / 10 % 10,
            48 + n % 10] = _
          simp only [List.cons.injEq, and_true]
          repeat' apply And.intro
          all_goals omega
        · rw [formatNat_step _ (by omega)]
          by_cases h5 : n / 10 / 10 / 10 / 10 < 10
          · rw [formatNat_small _ h5]
            show [48, 48 + n / 10 / 10 / 10 / 10, 48 + n / 10 / 10 / 10 % 10,
              48 + n / 10 / 10 % 10, 48 + n / 10 % 10, 48 + n % 10] = _
            simp only [List.cons.injEq, and_true]
            repeat' apply And.intro
            all_goals omega
          · rw [formatNat_step _ (by omega)]
            have h6 : n / 10 / 10 / 10 / 10 / 10 < 10 := by omega
            rw [formatNat_small _ h6]
            show [48 + n / 10 / 10 / 10 / 10 / 10, 48 + n / 10 / 10 / 10 / 10 % 10,
              48 + n / 10 / 10 / 10 % 10,
              48 + n / 10 / 10 % 10, 48 + n / 10 % 10, 48 + n % 10] = _
            simp only [List.cons.injEq, and_true]
            repeat' apply And.intro
            all_goals omega

theorem lexLt_six (a5 a4 a3 a2 a1 a0 b5 b4 b3 b2 b1 b0 : Nat) (r s : Bytes)
    (h : a5 < b5 ∨ (a5 = b5 ∧ (a4 < b4 ∨ (a4 = b4 ∧ (a3 < b3 ∨ (a3 = b3 ∧
      (a2 < b2 ∨ (a2 = b2 ∧ (a1 < b1 ∨ (a1 = b1 ∧ a0 < b0)))))))))) :
    lexLt ([a5, a4, a3, a2, a1, a0] ++ r) ([b5, b4, b3, b2, b1, b0] ++ s) = true := by
  simp only [List.cons_append, List.nil_append, lexLt, Bool.or_eq_true, decide_eq_true_eq,
    Bool.and_eq_true, beq_iff_eq]
  rcases h with h | ⟨e5, h⟩
  · exact Or.inl h
  · refine Or.inr ⟨e5, ?_⟩
    rcases h with h | ⟨e4, h⟩
    · exact Or.inl h
    · refine Or.inr ⟨e4, ?_⟩
      rcases h with h | ⟨e3, h⟩
      · exact Or.inl h
      · refine Or.inr ⟨e3, ?_⟩
        rcases h with h | ⟨e2, h⟩
        · exact Or.inl h
        · refine Or.inr ⟨e2, ?_⟩
          rcases h with h | ⟨e1, h⟩
          · exact Or.inl h
          · exact Or.inr ⟨e1, Or.inl h⟩

theorem entryName_lexLt (m n : Nat) (K1 K2 : Bytes) (hmn : m < n) (hn : n ≤ 999999) :
    lexLt (entryName m K1) (entryName n K2) = true := by
  unfold entryName
  rw [sprintf06d_six m (by omega), sprintf06d_six n hn]
  apply lexLt_six
  rcases (by omega : m / 100000 < n / 100000 ∨
      (m / 100000 = n / 100000 ∧ m % 100000 < n % 100000)) with h | ⟨e5, h5⟩
  · exact Or.inl (by omega)
  refine Or.inr ⟨by omega, ?_⟩
  rcases (by omega : m / 10000 % 10 < n / 10000 % 10 ∨
      (m / 10000 % 10 = n / 10000 % 10 ∧ m % 10000 < n % 10000)) with h | ⟨e4, h4⟩
  · exact Or.inl (by omega)
  refine Or.inr ⟨by omega, ?_⟩
  rcases (by omega : m / 1000 % 10 < n / 1000 % 10 ∨
      (m / 1000 % 10 = n / 1000 % 10 ∧ m % 1000 < n % 1000)) with h | ⟨e3, h3⟩
  · exact Or.inl (by omega)
  refine Or.inr ⟨by omega, ?_⟩
  rcases (by omega : m / 100 % 10 < n / 100 % 10 ∨
      (m / 100 % 10 = n / 100 % 10 ∧ m % 100 < n % 100)) with h | ⟨e2, h2⟩
  · exact Or.inl (by omega)
  refine Or.inr ⟨by omega, ?_⟩
  rcases (by omega : m / 10 % 10 < n / 10 % 10 ∨
      (m / 10 % 10 = n / 10 % 10 ∧ m % 10 < n % 10)) with h | ⟨e1, h1⟩
  · exact Or.inl (by omega)
  exact Or.inr ⟨by omega, by omega⟩



/-! ## strconv round trip -/

theorem parseUintLoop_append (a b : Bytes) : ∀ acc : Nat,
    parseUintLoop (a ++ b) acc =
      match parseUintLoop a acc with
      | .ok v => parseUintLoop b v
      | .error e => .error e := by
  induction a with
  | nil => intro acc; simp [parseUintLoop]
  | cons c cs ih =>
    intro acc
    simp only [List.cons_append, parseUintLoop]
    split
    · split
      · rfl
      · split
        · rfl
        · exact ih _
    · rfl

theorem parseUintLoop_digit (d acc : Nat) (hd : d < 10) (h : acc * 10 + d < 2 ^ 64) :
    parseUintLoop [48 + d] acc = .ok (acc * 10 + d) := by
  have h64 : (2 : Nat) ^ 64 = 18446744073709551616 := by norm_num
  rw [h64] at h
  simp only [parseUintLoop, h64]
  have h1 : 48 ≤ 48 + d ∧ 48 + d ≤ 57 := by omega
  have h2 : ¬ acc ≥ 18446744073709551616 / 10 + 1 := by omega
  have h3 : ¬ acc * 10 + (48 + d - 48) ≥ 18446744073709551616 := by omega
  rw [if_pos h1, if_neg h2, if_neg h3]
  congr 1
  omega

theorem parseUintLoop_formatNat (n : Nat) : n < 2 ^ 64 →
    parseUintLoop (formatNat n) 0 = .ok n := by
  induction n using Nat.strong_induction_on with
  | _ n ih =>
    intro hn
    by_cases h10 : n < 10
    · rw [formatNat_small n h10]
      have := parseUintLoop_digit n 0 h10 (by omega)
      simpa using this
    · rw [formatNat_step n (by omega), parseUintLoop_append,
        ih (n / 10) (by omega) (by omega)]
      have := parseUintLoop_digit (n % 10) (n / 10) (by omega) (by omega)
      simp only [this]
      congr 1
      omega

/-- The rendering of a number starts with a decimal digit. -/
theorem formatNat_head (n : Nat) : ∃ d tl, formatNat n = d :: tl ∧ 48 ≤ d ∧ d ≤ 57 := by
  induction n using Nat.strong_induction_on with
  | _ n ih =>
    by_cases h10 : n < 10
    · exact ⟨48 + n, [], formatNat_small n h10, by omega, by omega⟩
    · obtain ⟨d, tl, e, h1, h2⟩ := ih (n / 10) (by omega)
      refine ⟨d, tl ++ [48 + n % 10], ?_, h1, h2⟩
      rw [formatNat_step n (by omega), e]
      rfl

theorem parseUint_formatNat (n : Nat) (hn : n < 2 ^ 64) : parseUint (formatNat n) = .ok n := by
  obtain ⟨d, tl, e, _, _⟩ := formatNat_head n
  have := parseUintLoop_formatNat n hn
  rw [e] at this ⊢
  simpa [parseUint] using this

/-- Reading with `Atoi` what `Itoa` writes gives the value back, for every
value of a Go `int`. -/
theorem Atoi_Itoa (c : Int) (hc : IsInt64 c) : Atoi (Itoa c) = .ok c := by
  obtain ⟨hlo, hhi⟩ := hc
  have h63 : (2 : Int) ^ 63 = 9223372036854775808 := by norm_num
  have h63n : (2 : Nat) ^ 63 = 9223372036854775808 := by norm_num
  have h64n : (2 : Nat) ^ 64 = 18446744073709551616 := by norm_num
  rw [h63] at hlo hhi
  unfold Itoa
  by_cases hneg : c < 0
  · rw [if_pos hneg]
    have hp := parseUint_formatNat c.natAbs (by omega)
    simp only [Atoi, hp, h63n]
    rw [if_neg (by omega)]
    congr 1
    simp only [Int.ofNat_eq_coe]
    omega
  · rw [if_neg hneg]
    have hp := parseUint_formatNat c.natAbs (by omega)
    obtain ⟨d, tl, e, h1, h2⟩ := formatNat_head c.natAbs
    rw [e] at hp ⊢
    unfold Atoi
    split
    · rename_i heq; simp at heq
    · rename_i rest heq
      simp only [List.cons.injEq] at heq
      omega
    · rename_i rest heq
      simp only [List.cons.injEq] at heq
      omega
    · simp only [hp, h63n]
      rw [if_neg (by omega)]
      congr 1
      simp only [Int.ofNat_eq_coe]
      omega



/-! ## UTF-8 facts -/

/-- A well-formed first rune: its bytes are a front part of the input, are
what `encodeRune` writes for it, and alone decide the result. -/
theorem decodeRune_chunk (s : Bytes) (hs : s ≠ [])
    (h : ¬ ((decodeRune s).1 = 0xFFFD ∧ (decodeRune s).2 = 1)) :
    ∃ chunk tail, s = chunk ++ tail ∧ chunk.length = (decodeRune s).2 ∧
      encodeRune (decodeRune s).1 = chunk ∧ 1 ≤ chunk.length ∧
      (0x80 ≤ s.headD 0 → 0x80 ≤ chunk.headD 0 ∧ chunk.headD 0 < 0xF5) ∧
      ∀ t, decodeRune (chunk ++ t) = decodeRune s := by
  cases s with
  | nil => exact absurd rfl hs
  | cons p0 rest =>
    by_cases h1 : p0 < 0x80
    · refine ⟨[p0], rest, rfl, ?_, ?_, by simp, ?_, ?_⟩
      · simp [decodeRune, h1]
      · simp only [decodeRune, h1, if_true, encodeRune]
        rw [if_pos (by omega)]
      · intro h80; simp at h80; omega
      · intro t; simp [decodeRune, h1]
    · by_cases h2 : p0 < 0xC2
      · exfalso; apply h; simp [decodeRune, h1, h2]
      · by_cases h3 : p0 < 0xE0
        · cases rest with
          | nil => exfalso; apply h; simp [decodeRune, h1, h2, h3]
          | cons b1 tl =>
            by_cases hc : 0x80 ≤ b1 ∧ b1 ≤ 0xBF
            · have hd : ∀ t, decodeRune (p0 :: b1 :: t) = ((p0 % 32) * 64 + b1 % 64, 2) := by
                intro t; simp only [decodeRune, h1, h2, h3, hc, if_true, if_false, and_self]
              refine ⟨[p0, b1], tl, rfl, ?_, ?_, by simp, ?_, ?_⟩
              · rw [hd]; rfl
              · rw [hd]
                simp only [encodeRune]
                rw [if_neg (by omega), if_pos (by omega)]
                simp only [List.cons.injEq, and_true]
                constructor <;> omega
              · intro _; simp; omega
              · intro t; simp only [List.cons_append, List.nil_append, hd]
            · exfalso; apply h; simp only [decodeRune, h1, h2, h3, hc, if_true, if_false, and_self]
        · by_cases h4 : p0 < 0xF0
          · match rest with
            | [] => exfalso; apply h; simp [decodeRune, h1, h2, h3, h4]
            | [_] => exfalso; apply h; simp [decodeRune, h1, h2, h3, h4]
            | b1 :: b2 :: tl =>
              by_cases hc : (if p0 = 0xE0 then 0xA0 else 0x80) ≤ b1
                  ∧ b1 ≤ (if p0 = 0xED then 0x9F else 0xBF) ∧ 0x80 ≤ b2 ∧ b2 ≤ 0xBF
              · have hd : ∀ t, decodeRune (p0 :: b1 :: b2 :: t)
                    = ((p0 % 16) * 4096 + (b1 % 64) * 64 + b2 % 64, 3) := by
                  intro t
                  simp only [decodeRune, h1, h2, h3, h4, if_true, if_false]
                  rw [if_pos hc]
                obtain ⟨c1, c2, c3, c4⟩ := hc
                have k1 : (p0 = 0xE0 → 0xA0 ≤ b1) ∧ 0x80 ≤ b1 := by
                  split_ifs at c1 <;> omega
                have k2 : (p0 = 0xED → b1 ≤ 0x9F) ∧ b1 ≤ 0xBF := by
                  split_ifs at c2 <;> omega
                refine ⟨[p0, b1, b2], tl, rfl, ?_, ?_, by simp, ?_, ?_⟩
                · rw [hd]; rfl
                · rw [hd]
                  simp only [encodeRune]
                  rw [if_neg (by omega), if_neg (by omega), if_neg (by omega), if_pos (by omega)]
                  simp only [List.cons.injEq, and_true]
                  refine ⟨?_, ?_, ?_⟩ <;> omega
                · intro _; simp; omega
                · intro t; simp only [List.cons_append, List.nil_append, hd]
              · exfalso; apply h
                simp only [decodeRune, h1, h2, h3, h4, if_true, if_false]
                rw [if_neg hc]; exact ⟨rfl, rfl⟩
          · by_cases h5 : p0 < 0xF5
            · match rest with
              | [] => exfalso; apply h; simp [decodeRune, h1, h2, h3, h4, h5]
              | [_] => exfalso; apply h; simp [decodeRune, h1, h2, h3, h4, h5]
              | [_, _] => exfalso; apply h; simp [decodeRune, h1, h2, h3, h4, h5]
              | b1 :: b2 :: b3 :: tl =>
                by_cases hc : (if p0 = 0xF0 then 0x90 else 0x80) ≤ b1
                    ∧ b1 ≤ (if p0 = 0xF4 then 0x8F else 0xBF) ∧ 0x80 ≤ b2 ∧ b2 ≤ 0xBF
                    ∧ 0x80 ≤ b3 ∧ b3 ≤ 0xBF
                · have hd : ∀ t, decodeRune (p0 :: b1 :: b2 :: b3 :: t)
                      = ((p0 % 8) * 262144 + (b1 % 64) * 4096 + (b2 % 64) * 64 + b3 % 64, 4) := by
                    intro t
                    simp only [decodeRune, h1, h2, h3, h4, h5, if_true, if_false]
                    rw [if_pos hc]
                  obtain ⟨c1, c2, c3, c4, c5, c6⟩ := hc
                  have k1 : (p0 = 0xF0 → 0x90 ≤ b1) ∧ 0x80 ≤ b1 := by
                    split_ifs at c1 <;> omega
                  have k2 : (p0 = 0xF4 → b1 ≤ 0x8F) ∧ b1 ≤ 0xBF := by
                    split_ifs at c2 <;> omega
                  refine ⟨[p0, b1, b2, b3], tl, rfl, ?_, ?_, by simp, ?_, ?_⟩
                  · rw [hd]; rfl
                  · rw [hd]
                    simp only [encodeRune]
                    rw [if_neg (by omega), if_neg (by omega), if_neg (by omega),
                      if_neg (by omega)]
                    simp only [List.cons.injEq, and_true]
                    refine ⟨?_, ?_, ?_, ?_⟩ <;> omega
                  · intro _; simp; omega
                  · intro t; simp only [List.cons_append, List.nil_append, hd]
                · exfalso; apply h
                  simp only [decodeRune, h1, h2, h3, h4, h5, if_true, if_false]
                  rw [if_neg hc]; exact ⟨rfl, rfl⟩
            · exfalso; apply h; simp [decodeRune, h1, h2, h3, h4, h5]
/-- What `encodeRune` writes is read back by `decodeRune` as one
well-formed rune of the same width. -/
theorem decodeRune_encodeRune (r : Nat) (t : Bytes) :
    (decodeRune (encodeRune r ++ t)).2 = (encodeRune r).length ∧
    ¬ ((decodeRune (encodeRune r ++ t)).1 = 0xFFFD ∧ (decodeRune (encodeRune r ++ t)).2 = 1) := by
  unfold encodeRune
  by_cases h1 : r ≤ 0x7F
  · rw [if_pos h1]
    have hlt : r < 0x80 := by omega
    simp only [List.cons_append, List.nil_append, decodeRune, hlt, if_true, List.length_singleton]
    refine ⟨trivial, ?_⟩
    intro hh; omega
  · rw [if_neg h1]
    by_cases h2 : r ≤ 0x7FF
    · rw [if_pos h2]
      simp only [List.cons_append, List.nil_append, decodeRune]
      rw [if_neg (by omega), if_neg (by omega), if_pos (by omega), if_pos (by omega)]
      simp
    · rw [if_neg h2]
      by_cases h3 : r > 0x10FFFF ∨ (0xD800 ≤ r ∧ r ≤ 0xDFFF)
      · rw [if_pos h3]
        simp [decodeRune]
      · rw [if_neg h3]
        by_cases h4 : r ≤ 0xFFFF
        · rw [if_pos h4]
          simp only [List.cons_append, List.nil_append, decodeRune]
          rw [if_neg (by omega), if_neg (by omega), if_neg (by omega), if_pos (by omega)]
          rw [if_pos (by
            refine ⟨?_, ?_, ?_, ?_⟩
            · split_ifs <;> omega
            · split_ifs <;> omega
            · omega
            · omega)]
          simp
        · rw [if_neg h4]
          simp only [List.cons_append, List.nil_append, decodeRune]
          rw [if_neg (by omega), if_neg (by omega), if_neg (by omega), if_neg (by omega),
            if_pos (by omega)]
          rw [if_pos (by
            refine ⟨?_, ?_, ?_, ?_, ?_, ?_⟩
            · split_ifs <;> omega
            · split_ifs <;> omega
            · omega
            · omega
            · omega
            · omega)]
          simp

theorem encodeRune_ne_nil (r : Nat) : encodeRune r ≠ [] := by
  unfold encodeRune
  split_ifs <;> simp

/-- The width of a rune read from non-empty input is at least one. -/
theorem decodeRune_size_pos (s : Bytes) (hs : s ≠ []) : 1 ≤ (decodeRune s).2 := by
  by_cases h : (decodeRune s).1 = 0xFFFD ∧ (decodeRune s).2 = 1
  · omega
  · obtain ⟨chunk, tail, _, hl, _, h1, _⟩ := decodeRune_chunk s hs h
    omega

theorem validUTF8Aux_fuel (n : Nat) : ∀ (s : Bytes) (g : Nat), s.length ≤ n → s.length ≤ g →
    validUTF8Aux g s = validUTF8Aux s.length s := by
  induction n with
  | zero =>
    intro s g hn _
    have : s = [] := List.length_eq_zero.mp (by omega)
    subst this
    cases g <;> rfl
  | succ n ih =>
    intro s g hn hg
    cases s with
    | nil => cases g <;> rfl
    | cons b rest =>
      cases g with
      | zero => simp at hg
      | succ g =>
        simp only [List.length_cons, validUTF8Aux]
        split
        · rfl
        · have hp := decodeRune_size_pos (b :: rest) (by simp)
          have hl : ((b :: rest).drop (decodeRune (b :: rest)).2).length ≤ rest.length := by
            simp only [List.length_drop, List.length_cons]; omega
          simp only [List.length_cons] at hn hg
          rw [ih _ g (by omega) (by omega), ih _ rest.length (by omega) hl]

/-- Well-formed UTF-8 stays well-formed with one more well-formed rune in
front. -/
theorem validUTF8_chunk_append (pre s : Bytes) (hne : pre ≠ [])
    (hpre : (decodeRune (pre ++ s)).2 = pre.length ∧
      ¬ ((decodeRune (pre ++ s)).1 = 0xFFFD ∧ (decodeRune (pre ++ s)).2 = 1))
    (hs : validUTF8 s = true) : validUTF8 (pre ++ s) = true := by
  unfold validUTF8 at hs ⊢
  cases hp : pre ++ s with
  | nil => rfl
  | cons b rest =>
    rw [hp] at hpre
    simp only [List.length_cons, validUTF8Aux]
    rw [if_neg hpre.2, hpre.1, ← hp, List.drop_left]
    rw [validUTF8Aux_fuel s.length s rest.length (le_refl _) ?_]
    · exact hs
    · have : (pre ++ s).length = rest.length + 1 := by rw [hp]; rfl
      have h1 : 1 ≤ pre.length := List.length_pos.mpr hne
      simp only [List.length_append] at this
      omega

theorem validUTF8_encodeRune_append (r : Nat) (s : Bytes) (hs : validUTF8 s = true) :
    validUTF8 (encodeRune r ++ s) = true :=
  validUTF8_chunk_append _ _ (encodeRune_ne_nil r) (decodeRune_encodeRune r s) hs

theorem validUTF8_ascii_cons (b : Nat) (s : Bytes) (hb : b < 0x80) (hs : validUTF8 s = true) :
    validUTF8 (b :: s) = true := by
  have := validUTF8_encodeRune_append b s hs
  simpa [encodeRune, show b ≤ 0x7F by omega] using this

/-- A well-formed non-empty string starts with a well-formed rune and goes
on well-formed. -/
theorem validUTF8_cons (b : Nat) (rest : Bytes) (h : validUTF8 (b :: rest) = true) :
    ¬ ((decodeRune (b :: rest)).1 = 0xFFFD ∧ (decodeRune (b :: rest)).2 = 1) ∧
    validUTF8 ((b :: rest).drop (decodeRune (b :: rest)).2) = true := by
  unfold validUTF8 at h ⊢
  simp only [List.length_cons, validUTF8Aux] at h
  split at h
  · exact absurd h (by simp)
  · rename_i hne
    refine ⟨hne, ?_⟩
    have hp := decodeRune_size_pos (b :: rest) (by simp)
    rw [validUTF8Aux_fuel _ _ rest.length (le_refl _) ?_] at h
    · exact h
    · simp only [List.length_drop, List.length_cons]; omega




/-! ## JSON strings: reading back what was written -/

theorem hexVal_hexDigit (x : Nat) (h : x < 16) : hexVal (hexDigit x) = some x := by
  have : x = 0 ∨ x = 1 ∨ x = 2 ∨ x = 3 ∨ x = 4 ∨ x = 5 ∨ x = 6 ∨ x = 7 ∨ x = 8 ∨ x = 9 ∨
      x = 10 ∨ x = 11 ∨ x = 12 ∨ x = 13 ∨ x = 14 ∨ x = 15 := by omega
  rcases this with h | h | h | h | h | h | h | h | h | h | h | h | h | h | h | h <;>
    subst h <;> decide

/-- Reading a `\uXXXX` escape that is not a surrogate. -/
theorem unquoteLoop_u4 (F a b c d rr : Nat) (tail : Bytes)
    (h : getu4 (92 :: 117 :: a :: b :: c :: d :: tail) = some rr)
    (hns : ¬ (0xD800 ≤ rr ∧ rr < 0xE000)) :
    unquoteLoop (F + 1) (92 :: 117 :: a :: b :: c :: d :: tail)
      = consDecoded (encodeRune rr) (unquoteLoop F tail) := by
  rw [unquoteLoop]
  simp only [h, if_neg hns, List.drop_succ_cons, List.drop_zero]
  simp

/-- One escaped ASCII byte is read back as that byte. -/
theorem unquoteLoop_escapeAscii (b : Nat) (hb : b < 0x80) (F : Nat) (tail : Bytes) :
    unquoteLoop (F + 1) (escapeAscii b ++ tail) = consDecoded [b] (unquoteLoop F tail) := by
  unfold escapeAscii
  split_ifs with h1 h2 h3 h4 h5 h6 h7
  · rcases h1 with h | h <;> subst h <;> simp [unquoteLoop, simpleEscape]
  · subst h2; simp [unquoteLoop, simpleEscape]
  · subst h3; simp [unquoteLoop, simpleEscape]
  · subst h4; simp [unquoteLoop, simpleEscape]
  · subst h5; simp [unquoteLoop, simpleEscape]
  · subst h6; simp [unquoteLoop, simpleEscape]
  · have e1 := hexVal_hexDigit (b / 16) (by omega)
    have e2 := hexVal_hexDigit (b % 16) (by omega)
    have e0 : hexVal 48 = some 0 := by decide
    have hv : (0 * 16 + 0) * 16 * 16 + b / 16 * 16 + b % 16 = b := by omega
    show unquoteLoop (F + 1) (92 :: 117 :: 48 :: 48 :: hexDigit (b / 16) :: hexDigit (b % 16)
      :: tail) = _
    have hg : getu4 (92 :: 117 :: 48 :: 48 :: hexDigit (b / 16) :: hexDigit (b % 16) :: tail)
        = some b := by
      simp only [getu4, e0, e1, e2]
      congr 1
      omega
    rw [unquoteLoop_u4 F _ _ _ _ b tail hg (by omega)]
    simp [encodeRune, show b ≤ 127 by omega]
  · simp only [List.cons_append, List.nil_append, unquoteLoop]
    rw [if_neg (by omega), if_neg (by omega), if_neg (by omega), if_pos hb]
    rfl

/-- The escaped line and paragraph separators are read back as written. -/
theorem unquoteLoop_sep (r : Nat) (hr : r = 0x2028 ∨ r = 0x2029) (F : Nat) (tail : Bytes) :
    unquoteLoop (F + 1) ([92, 117, 50, 48, 50, hexDigit (r % 16)] ++ tail)
      = consDecoded (encodeRune r) (unquoteLoop F tail) := by
  show unquoteLoop (F + 1) (92 :: 117 :: 50 :: 48 :: 50 :: hexDigit (r % 16) :: tail) = _
  have hg : getu4 (92 :: 117 :: 50 :: 48 :: 50 :: hexDigit (r % 16) :: tail) = some r := by
    rcases hr with h | h <;> subst h <;> rfl
  exact unquoteLoop_u4 F _ _ _ _ r tail hg (by omega)

/-- A well-formed rune of two or more bytes is read back as written. -/
theorem unquoteLoop_chunk (s : Bytes) (b : Nat) (rest : Bytes) (hs : s = b :: rest)
    (hb : 0x80 ≤ b)
    (h : ¬ ((decodeRune s).1 = 0xFFFD ∧ (decodeRune s).2 = 1)) (F : Nat) (tail : Bytes) :
    unquoteLoop (F + 1) (s.take (decodeRune s).2 ++ tail)
      = consDecoded (s.take (decodeRune s).2) (unquoteLoop F tail) := by
  obtain ⟨chunk, tl, e, hl, henc, h1, hhead, hdec⟩ := decodeRune_chunk s (by simp [hs]) h
  have ht : s.take (decodeRune s).2 = chunk := by
    rw [← hl, e, List.take_left]
  rw [ht]
  cases chunk with
  | nil => simp at h1
  | cons c cs =>
    have hc : 0x80 ≤ c := by
      have := hhead (by simp [hs]; omega)
      simpa using this.1
    have hd := hdec tail
    rw [List.cons_append] at hd ⊢
    simp only [unquoteLoop]
    rw [if_neg (by omega), if_neg (by omega), if_neg (by omega), if_neg (by omega)]
    simp only [hd]
    rw [henc, ← hl, ← List.cons_append, List.drop_left]

theorem escapeAscii_length_pos (b : Nat) : 1 ≤ (escapeAscii b).length := by
  unfold escapeAscii
  split_ifs <;> simp

theorem consDecoded_some (pre s rest : Bytes) :
    consDecoded pre (some (s, rest)) = some (pre ++ s, rest) := rfl

/-- The bytes of a well-formed first rune are what `encodeRune` writes. -/
theorem encodeRune_decodeRune_take (s : Bytes) (hs : s ≠ [])
    (h : ¬ ((decodeRune s).1 = 0xFFFD ∧ (decodeRune s).2 = 1)) :
    encodeRune (decodeRune s).1 = s.take (decodeRune s).2 ∧ 1 ≤ (s.take (decodeRune s).2).length := by
  obtain ⟨chunk, tl, e, hl, henc, h1, _, _⟩ := decodeRune_chunk s hs h
  have ht : s.take (decodeRune s).2 = chunk := by
    rw [← hl, e, List.take_left]
  rw [ht]
  exact ⟨henc, h1⟩

/-- Reading back the body of a string literal written by `appendString`
from well-formed UTF-8 gives the string and stops after the closing quote. -/
theorem unquoteLoop_appendStringLoop (n : Nat) : ∀ (s : Bytes) (f F : Nat) (rest : Bytes),
    s.length ≤ n → s.length ≤ f → (appendStringLoop f s).length < F → validUTF8 s = true →
    unquoteLoop F (appendStringLoop f s ++ 34 :: rest) = some (s, rest) := by
  induction n with
  | zero =>
    intro s f F rest hn _ hF _
    have : s = [] := List.length_eq_zero.mp (by omega)
    subst this
    cases F with
    | zero => omega
    | succ F => cases f <;> simp [appendStringLoop, unquoteLoop]
  | succ n ih =>
    intro s f F rest hn hf hF hv
    cases s with
    | nil =>
      cases F with
      | zero => omega
      | succ F => cases f <;> simp [appendStringLoop, unquoteLoop]
    | cons b r =>
      cases f with
      | zero => simp at hf
      | succ f =>
        cases F with
        | zero => omega
        | succ F =>
          simp only [List.length_cons] at hn hf
          obtain ⟨hok, hvr⟩ := validUTF8_cons b r hv
          have hpos := decodeRune_size_pos (b :: r) (by simp)
          have hdl : ((b :: r).drop (decodeRune (b :: r)).2).length ≤ r.length := by
            simp only [List.length_drop, List.length_cons]; omega
          simp only [appendStringLoop] at hF ⊢
          by_cases hb : b < 0x80
          · rw [if_pos hb] at hF ⊢
            have hd1 : decodeRune (b :: r) = (b, 1) := by simp [decodeRune, hb]
            rw [hd1] at hvr
            simp only [List.drop_succ_cons, List.drop_zero] at hvr
            have hl := escapeAscii_length_pos b
            simp only [List.length_append] at hF
            rw [List.append_assoc, unquoteLoop_escapeAscii b hb,
              ih r f F rest (by omega) (by omega) (by omega) hvr]
            rfl
          · rw [if_neg hb] at hF ⊢
            rw [if_neg hok] at hF ⊢
            obtain ⟨henc, htl⟩ := encodeRune_decodeRune_take (b :: r) (by simp) hok
            by_cases hsep : (decodeRune (b :: r)).1 = 0x2028 ∨ (decodeRune (b :: r)).1 = 0x2029
            · rw [if_pos hsep] at hF ⊢
              simp only [List.length_append, List.length_cons, List.length_nil] at hF
              rw [List.append_assoc, unquoteLoop_sep _ hsep,
                ih _ f F rest (by omega) (by omega) (by omega) hvr, consDecoded_some, henc,
                List.take_append_drop]
            · rw [if_neg hsep] at hF ⊢
              simp only [List.length_append] at hF
              rw [List.append_assoc, unquoteLoop_chunk (b :: r) b r rfl (by omega) hok,
                ih _ f F rest (by omega) (by omega) (by omega) hvr, consDecoded_some,
                List.take_append_drop]




/-! ## JSON strings: what is read is well-formed UTF-8 -/

theorem consDecoded_eq_some (pre : Bytes) (r : Option (Bytes × Bytes)) (s rest : Bytes)
    (h : consDecoded pre r = some (s, rest)) : ∃ s1, r = some (s1, rest) ∧ s = pre ++ s1 := by
  cases r with
  | none => simp [consDecoded] at h
  | some p =>
    obtain ⟨s1, r1⟩ := p
    simp only [consDecoded, Option.some.injEq, Prod.mk.injEq] at h
    exact ⟨s1, by rw [h.2], h.1.symm⟩

theorem simpleEscape_lt (e b : Nat) (h : simpleEscape e = some b) : b < 0x80 := by
  unfold simpleEscape at h
  split_ifs at h with h1 <;> simp only [Option.some.injEq] at h <;> omega

theorem valid_consDecoded_rune (F : Nat)
    (ih : ∀ bs s rest, unquoteLoop F bs = some (s, rest) → validUTF8 s = true)
    (r : Nat) (x s rest : Bytes)
    (h : consDecoded (encodeRune r) (unquoteLoop F x) = some (s, rest)) : validUTF8 s = true := by
  obtain ⟨s1, h1, h2⟩ := consDecoded_eq_some _ _ _ _ h
  rw [h2]
  exact validUTF8_encodeRune_append r s1 (ih _ _ _ h1)

theorem valid_consDecoded_ascii (F : Nat)
    (ih : ∀ bs s rest, unquoteLoop F bs = some (s, rest) → validUTF8 s = true)
    (b : Nat) (x s rest : Bytes) (hb : b < 0x80)
    (h : consDecoded [b] (unquoteLoop F x) = some (s, rest)) : validUTF8 s = true := by
  obtain ⟨s1, h1, h2⟩ := consDecoded_eq_some _ _ _ _ h
  rw [h2]
  exact validUTF8_ascii_cons b s1 hb (ih _ _ _ h1)

/-- Every string read from a JSON string literal is well-formed UTF-8. -/
theorem unquoteLoop_valid (F : Nat) : ∀ (bs s rest : Bytes),
    unquoteLoop F bs = some (s, rest) → validUTF8 s = true := by
  induction F with
  | zero => intro bs s rest h; simp [unquoteLoop] at h
  | succ F ih =>
    intro bs s rest h
    cases bs with
    | nil => simp [unquoteLoop] at h
    | cons c tl =>
      simp only [unquoteLoop] at h
      repeat' split at h
      all_goals first
        | contradiction
        | (simp only [Option.some.injEq, Prod.mk.injEq] at h; rw [← h.1]; rfl)
        | exact valid_consDecoded_rune F ih _ _ _ _ h
        | exact valid_consDecoded_ascii F ih _ _ _ _ (by omega) h
        | exact valid_consDecoded_ascii F ih _ _ _ _ (simpleEscape_lt _ _ (by assumption)) h




/-! ## JSON arrays of `TodoList`: reading back what was written -/

theorem marshalTodoList_eq (t : TodoList) (rest : Bytes) :
    marshalTodoList t ++ rest = 123 :: 34 :: (appendStringLoop 4 [78, 97, 109, 101] ++
      34 :: 58 :: 34 :: (appendStringLoop t.Name.length t.Name ++ 34 :: 125 :: rest)) := by
  have hl : lit "\"Name\":" = [34, 78, 97, 109, 101, 34, 58] := by decide
  have hn : appendStringLoop 4 [78, 97, 109, 101] = [78, 97, 109, 101] := by decide
  simp [marshalTodoList, appendString, hl, hn]

theorem skipWs_cons (c : Nat) (rest : Bytes) (h : ¬ (c = 32 ∨ c = 9 ∨ c = 13 ∨ c = 10)) :
    skipWs (c :: rest) = c :: rest := by
  simp only [skipWs, if_neg h]

/-- One written element is read back, up to its closing brace. -/
theorem decodeElem_marshalTodoList (F : Nat) (t : TodoList) (rest : Bytes)
    (hv : validUTF8 t.Name = true) :
    decodeElem (F + 1) (marshalTodoList t ++ rest) = some (t, false, rest) := by
  rw [marshalTodoList_eq]
  have hkey : ∀ x : Bytes, unquoteLoop ((appendStringLoop 4 [78, 97, 109, 101] ++ 34 :: x).length + 1)
      (appendStringLoop 4 [78, 97, 109, 101] ++ 34 :: x) = some ([78, 97, 109, 101], x) := by
    intro x
    apply unquoteLoop_appendStringLoop 4 _ 4 _ x (by simp) (by simp) _ (by decide)
    simp only [List.length_append]; omega
  have hval : ∀ x : Bytes,
      unquoteLoop ((appendStringLoop t.Name.length t.Name ++ 34 :: x).length + 1)
        (appendStringLoop t.Name.length t.Name ++ 34 :: x) = some (t.Name, x) := by
    intro x
    apply unquoteLoop_appendStringLoop t.Name.length _ _ _ x (le_refl _) (le_refl _) _ hv
    simp only [List.length_append]; omega
  have hm : matchesName [78, 97, 109, 101] = true := by decide
  simp only [decodeElem]
  rw [skipWs_cons 34 _ (by decide)]
  simp only [decodeMembers, hkey]
  rw [skipWs_cons 58 _ (by decide)]
  simp only [hm, if_true]
  rw [skipWs_cons 34 _ (by decide)]
  simp only [decodeNameValue, hval]
  rw [skipWs_cons 125 _ (by decide)]
  simp

theorem marshalElems_head (t : TodoList) (ts : List TodoList) (x : Bytes) :
    ∃ y, marshalElems (t :: ts) ++ x = 123 :: y := by
  cases ts with
  | nil => exact ⟨_, by simp only [marshalElems]; rw [marshalTodoList_eq]⟩
  | cons t2 ts =>
    simp only [marshalElems]
    rw [List.append_assoc, marshalTodoList_eq]
    exact ⟨_, rfl⟩

theorem marshalElems_length (l : List TodoList) : l.length ≤ (marshalElems l).length := by
  induction l with
  | nil => simp
  | cons t ts ih =>
    cases ts with
    | nil =>
      have := marshalTodoList_eq t []
      simp only [List.append_nil] at this
      simp only [marshalElems, this]
      simp
    | cons t2 ts =>
      have := marshalTodoList_eq t []
      simp only [List.append_nil] at this
      simp only [marshalElems, this, List.length_cons, List.length_append] at ih ⊢
      omega

/-- The written elements are read back, up to the closing bracket. -/
theorem decodeElems_marshalElems (F : Nat) (ts : List TodoList) : ∀ (t : TodoList) (fuel : Nat)
    (rest : Bytes), ts.length < fuel → (∀ u ∈ t :: ts, validUTF8 u.Name = true) →
    decodeElems (F + 1) fuel (marshalElems (t :: ts) ++ 93 :: rest)
      = some (t :: ts, false, rest) := by
  induction ts with
  | nil =>
    intro t fuel rest hf hv
    cases fuel with
    | zero => omega
    | succ fuel =>
      simp only [marshalElems, decodeElems]
      rw [decodeElem_marshalTodoList F t _ (hv t (by simp))]
      simp only
      rw [skipWs_cons 93 _ (by decide)]
  | cons t2 ts ih =>
    intro t fuel rest hf hv
    cases fuel with
    | zero => omega
    | succ fuel =>
      simp only [List.length_cons] at hf
      simp only [marshalElems, decodeElems]
      rw [List.append_assoc, decodeElem_marshalTodoList F t _ (hv t (by simp))]
      simp only
      rw [List.cons_append, skipWs_cons 44 _ (by decide)]
      simp only
      obtain ⟨y, hy⟩ := marshalElems_head t2 ts (93 :: rest)
      have hs : skipWs (marshalElems (t2 :: ts) ++ 93 :: rest)
          = marshalElems (t2 :: ts) ++ 93 :: rest := by
        rw [hy, skipWs_cons 123 _ (by decide)]
      rw [hs, ih t2 fuel rest (by omega) (fun u hu => hv u (by simp at hu ⊢; right; exact hu))]
      simp

/-- Reading a written `[]TodoList` whose names are well-formed UTF-8 gives
the slice back. -/
theorem jsonUnmarshal_jsonMarshal (sl : Option (List TodoList))
    (hv : ∀ u ∈ sl.getD [], validUTF8 u.Name = true) :
    jsonUnmarshalTodoLists (jsonMarshalTodoLists sl) = .ok sl := by
  cases sl with
  | none => decide
  | some l =>
    cases l with
    | nil => decide
    | cons t ts =>
      simp only [Option.getD_some] at hv
      obtain ⟨y, hy⟩ := marshalElems_head t ts [93]
      have hlen := marshalElems_length (t :: ts)
      simp only [jsonUnmarshalTodoLists, jsonMarshalTodoLists]
      rw [skipWs_cons 91 _ (by decide)]
      simp only
      have hs : skipWs (marshalElems (t :: ts) ++ [93]) = 123 :: y := by
        rw [hy, skipWs_cons 123 _ (by decide)]
      rw [hs]
      simp only
      rw [← hy]
      have hF : 2 * (91 :: (marshalElems (t :: ts) ++ [93])).length + 2
          = (2 * (91 :: (marshalElems (t :: ts) ++ [93])).length + 1) + 1 := rfl
      rw [hF, decodeElems_marshalElems _ ts t _ [] ?_ hv]
      · simp [skipWs]
      · simp only [List.length_cons, List.length_append] at hlen ⊢
        omega




/-! ## JSON arrays of `TodoList`: names read are well-formed UTF-8 -/

theorem decodeNameValue_valid (F : Nat) (cur bs s : Bytes) (fl : Bool) (r : Bytes)
    (h : decodeNameValue F cur bs = some (s, fl, r)) (hc : validUTF8 cur = true) :
    validUTF8 s = true := by
  unfold decodeNameValue at h
  split at h
  · split at h
    · contradiction
    · rename_i s1 r1 hq
      simp only [Option.some.injEq, Prod.mk.injEq] at h
      rw [← h.1]
      exact unquoteLoop_valid _ _ _ _ hq
  · simp only [Option.some.injEq, Prod.mk.injEq] at h
    rw [← h.1]; exact hc
  · split at h
    · contradiction
    · simp only [Option.some.injEq, Prod.mk.injEq] at h
      rw [← h.1]; exact hc

theorem decodeMembers_valid (F : Nat) (fuel : Nat) : ∀ (cur : Bytes) (flag : Bool)
    (bs s : Bytes) (fl : Bool) (r : Bytes),
    decodeMembers F fuel cur flag bs = some (s, fl, r) → validUTF8 cur = true →
    validUTF8 s = true := by
  induction fuel with
  | zero => intro cur flag bs s fl r h; simp [decodeMembers] at h
  | succ fuel ih =>
    intro cur flag bs s fl r h hc
    simp only [decodeMembers] at h
    split at h
    · split at h
      · contradiction
      · split at h
        · split at h
          · contradiction
          · rename_i cur1 fl1 r3 hres
            have hv1 : validUTF8 cur1 = true := by
              split at hres
              · exact decodeNameValue_valid F cur _ cur1 fl1 r3 hres hc
              · cases hsk : skipJson F 2 ScanMode.value _ with
                | none => rw [hsk] at hres; simp at hres
                | some r0 =>
                  rw [hsk] at hres
                  simp only [Option.map_some', Option.some.injEq, Prod.mk.injEq] at hres
                  rw [← hres.1]; exact hc
            split at h
            · exact ih _ _ _ _ _ _ h hv1
            · simp only [Option.some.injEq, Prod.mk.injEq] at h
              rw [← h.1]; exact hv1
            · contradiction
        · contradiction
    · contradiction

theorem decodeElem_valid (F : Nat) (bs : Bytes) (t : TodoList) (fl : Bool) (r : Bytes)
    (h : decodeElem F bs = some (t, fl, r)) : validUTF8 t.Name = true := by
  unfold decodeElem at h
  split at h
  · split at h
    · simp only [Option.some.injEq, Prod.mk.injEq] at h
      rw [← h.1]; rfl
    · split at h
      · contradiction
      · rename_i name fl1 r2 hm
        simp only [Option.some.injEq, Prod.mk.injEq] at h
        rw [← h.1]
        exact decodeMembers_valid F F [] false _ name fl1 r2 hm rfl
  · simp only [Option.some.injEq, Prod.mk.injEq] at h
    rw [← h.1]; rfl
  · split at h
    · contradiction
    · simp only [Option.some.injEq, Prod.mk.injEq] at h
      rw [← h.1]; rfl

theorem decodeElems_valid (F : Nat) (fuel : Nat) : ∀ (bs : Bytes) (l : List TodoList) (fl : Bool)
    (r : Bytes), decodeElems F fuel bs = some (l, fl, r) → ∀ t ∈ l, validUTF8 t.Name = true := by
  induction fuel with
  | zero => intro bs l fl r h; simp [decodeElems] at h
  | succ fuel ih =>
    intro bs l fl r h
    simp only [decodeElems] at h
    split at h
    · contradiction
    · rename_i t fl0 r0 he
      have hv := decodeElem_valid F bs t fl0 r0 he
      split at h
      · split at h
        · contradiction
        · rename_i ts fl1 r2 hes
          simp only [Option.some.injEq, Prod.mk.injEq] at h
          rw [← h.1]
          intro u hu
          rcases List.mem_cons.mp hu with e | e
          · rw [e]; exact hv
          · exact ih _ _ _ _ hes u e
      · simp only [Option.some.injEq, Prod.mk.injEq] at h
        rw [← h.1]
        intro u hu
        rw [List.mem_singleton.mp hu]; exact hv
      · contradiction

/-- Every name in a successfully parsed projection is well-formed UTF-8. -/
theorem jsonUnmarshal_valid (data : Bytes) (sl : Option (List TodoList))
    (h : jsonUnmarshalTodoLists data = .ok sl) : ∀ t ∈ sl.getD [], validUTF8 t.Name = true := by
  unfold jsonUnmarshalTodoLists at h
  simp only at h
  split at h
  · split at h
    · contradiction
    · rename_i l fl rest hres
      split at h
      · contradiction
      · split at h
        · contradiction
        · simp only [Except.ok.injEq] at h
          rw [← h]
          simp only [Option.getD_some]
          split at hres
          · simp only [Option.some.injEq, Prod.mk.injEq] at hres
            rw [← hres.1]; simp
          · exact decodeElems_valid _ _ _ _ _ _ hres
  · split at h
    · simp only [Except.ok.injEq] at h
      rw [← h]; simp
    · contradiction
  · split at h
    · contradiction
    · split at h <;> contradiction




/-! ## Projections -/

theorem osReadFile_ok (fs : FS) (p : Path) (c : Bytes) (h : osReadFile fs p = .ok c) :
    p ≠ [] ∧ fsLookup fs p = some (.file c) := by
  unfold osReadFile at h
  split at h
  · contradiction
  · rename_i hp
    refine ⟨hp, ?_⟩
    split at h
    · rename_i c1 hl
      simp only [Except.ok.injEq] at h
      rw [hl, h]
    · contradiction
    · contradiction

theorem osReadFile_of_lookup (fs : FS) (p : Path) (c : Bytes) (hp : p ≠ [])
    (h : fsLookup fs p = some (.file c)) : osReadFile fs p = .ok c := by
  simp [osReadFile, hp, h]

theorem osWriteFile_existing (fs : FS) (p : Path) (c data : Bytes) (hp : p ≠ [])
    (h : fsLookup fs p = some (.file c)) :
    osWriteFile fs p data = (none, fsInsert p (.file data) fs) := by
  simp [osWriteFile, hp, h]

/-- A successful `WriteFile` leaves exactly the data in the file. -/
theorem osWriteFile_ok (fs fs1 : FS) (p : Path) (data : Bytes)
    (h : osWriteFile fs p data = (none, fs1)) : osReadFile fs1 p = .ok data := by
  unfold osWriteFile at h
  split at h
  · simp at h
  · rename_i hp
    split at h
    · simp only [Prod.mk.injEq, true_and] at h
      rw [← h]
      exact osReadFile_of_lookup _ _ _ hp (fsLookup_fsInsert_self _ _ _)
    · simp at h
    · split at h
      · simp at h
      · simp only [Prod.mk.injEq, true_and] at h
        rw [← h]
        exact osReadFile_of_lookup _ _ _ hp (fsLookup_fsInsert_self _ _ _)

theorem wrapInt64_isInt64 (x : Int) : IsInt64 (wrapInt64 x) := by
  unfold IsInt64 wrapInt64
  have h63 : (2 : Int) ^ 63 = 9223372036854775808 := by norm_num
  have h64 : (2 : Int) ^ 64 = 18446744073709551616 := by norm_num
  rw [h63, h64]
  omega

theorem wrapInt64_succ (c : Int) (h1 : -(2 ^ 63) ≤ c) (h2 : c < 2 ^ 63 - 1) :
    wrapInt64 (c + 1) = c + 1 := by
  unfold wrapInt64
  have h63 : (2 : Int) ^ 63 = 9223372036854775808 := by norm_num
  have h64 : (2 : Int) ^ 64 = 18446744073709551616 := by norm_num
  rw [h63] at h1 h2 ⊢
  rw [h64]
  omega

/-- What `Atoi` returns is a value of a Go `int`. -/
theorem Atoi_isInt64 (s : Bytes) (c : Int) (h : Atoi s = .ok c) : IsInt64 c := by
  have h63 : (2 : Int) ^ 63 = 9223372036854775808 := by norm_num
  have h63n : (2 : Nat) ^ 63 = 9223372036854775808 := by norm_num
  unfold IsInt64
  rw [h63]
  unfold Atoi at h
  rw [h63n] at h
  split at h
  · contradiction
  · split at h
    · contradiction
    · split at h
      · contradiction
      · simp only [Except.ok.injEq] at h
        rw [← h]; simp only [Int.ofNat_eq_coe]; omega
  · split at h
    · contradiction
    · split at h
      · contradiction
      · simp only [Except.ok.injEq] at h
        rw [← h]; simp only [Int.ofNat_eq_coe]; omega
  · split at h
    · contradiction
    · split at h
      · contradiction
      · simp only [Except.ok.injEq] at h
        rw [← h]; simp only [Int.ofNat_eq_coe]; omega

theorem projections_ne (repo : Path) :
    repo ++ [lit "projections", lit "TodoListsCount"] ≠ repo ++ [lit "projections", lit "todoLists"] := by
  intro h
  have := List.append_cancel_left h
  revert this
  decide

/-- C4, as amended: for every value `c` of a Go `int`, `Atoi` reads back
`c` from what `Itoa` writes, also through the TodoListsCount file; and for
every `[]TodoList` whose names are well-formed UTF-8, `json.Unmarshal`
reads back the slice from what `json.Marshal` writes, also through the
todoLists file. -/
theorem projection_roundtrip (repo : Path) (w : World) :
    (∀ c : Int, IsInt64 c → Atoi (Itoa c) = .ok c) ∧
    (∀ (c : Int) (fs1 : FS), IsInt64 c →
      osWriteFile w.fs (repo ++ [lit "projections", lit "TodoListsCount"]) (Itoa c) = (none, fs1) →
      ReadTodoListsCountProjection repo (w.withFs fs1) = .ok c) ∧
    (∀ sl : Option (List TodoList), (∀ u ∈ sl.getD [], validUTF8 u.Name = true) →
      jsonUnmarshalTodoLists (jsonMarshalTodoLists sl) = .ok sl) ∧
    (∀ (sl : Option (List TodoList)) (fs1 : FS), (∀ u ∈ sl.getD [], validUTF8 u.Name = true) →
      osWriteFile w.fs (repo ++ [lit "projections", lit "todoLists"]) (jsonMarshalTodoLists sl)
        = (none, fs1) →
      ReadTodoListsProjection repo (w.withFs fs1) = .ok sl) := by
  refine ⟨Atoi_Itoa, ?_, jsonUnmarshal_jsonMarshal, ?_⟩
  · intro c fs1 hc hw
    simp only [ReadTodoListsCountProjection, World.withFs, osWriteFile_ok _ _ _ _ hw]
    exact Atoi_Itoa c hc
  · intro sl fs1 hv hw
    simp only [ReadTodoListsProjection, World.withFs, osWriteFile_ok _ _ _ _ hw]
    exact jsonUnmarshal_jsonMarshal sl hv

theorem ReadTodoListsProjection_ok (repo : Path) (w : World) (sl : Option (List TodoList))
    (h : ReadTodoListsProjection repo w = .ok sl) :
    ∃ f, fsLookup w.fs (repo ++ [lit "projections", lit "todoLists"]) = some (.file f) ∧
      jsonUnmarshalTodoLists f = .ok sl := by
  unfold ReadTodoListsProjection at h
  split at h
  · contradiction
  · rename_i f hf
    exact ⟨f, (osReadFile_ok _ _ _ hf).2, h⟩

theorem ReadTodoListsCountProjection_ok (repo : Path) (w : World) (c : Int)
    (h : ReadTodoListsCountProjection repo w = .ok c) :
    ∃ f, fsLookup w.fs (repo ++ [lit "projections", lit "TodoListsCount"]) = some (.file f) ∧
      Atoi f = .ok c := by
  unfold ReadTodoListsCountProjection at h
  split at h
  · contradiction
  · rename_i f hf
    exact ⟨f, (osReadFile_ok _ _ _ hf).2, h⟩

/-- In the modelled file system, where a write to an existing file does
not fail, `Handle` of a `TodoListCreated` event with a well-formed name
succeeds on a state whose projections parse, and then the projections read
back with the new summary appended and the count incremented in 64-bit
arithmetic. -/
theorem Handle_TodoListCreated_spec (repo : Path) (w : World) (id name : Bytes)
    (sl : Option (List TodoList)) (c : Int)
    (hl : ReadTodoListsProjection repo w = .ok sl)
    (hc : ReadTodoListsCountProjection repo w = .ok c)
    (hname : validUTF8 name = true) :
    ∃ w1, Handle repo (.TodoListCreated id name) w = (none, w1) ∧
      ReadTodoListsProjection repo w1 = .ok (some (sl.getD [] ++ [⟨name⟩])) ∧
      ReadTodoListsCountProjection repo w1 = .ok (wrapInt64 (c + 1)) ∧
      (c < 2 ^ 63 - 1 → ReadTodoListsCountProjection repo w1 = .ok (c + 1)) := by
  obtain ⟨f, hf, hu⟩ := ReadTodoListsProjection_ok repo w sl hl
  obtain ⟨g, hg, ha⟩ := ReadTodoListsCountProjection_ok repo w c hc
  have hpl : repo ++ [lit "projections", lit "todoLists"] ≠ [] := by simp
  have hpc : repo ++ [lit "projections", lit "TodoListsCount"] ≠ [] := by simp
  have hne := projections_ne repo
  -- the list projection after the first step
  have h1 : UpdateListOfTodos repo (.TodoListCreated id name) w
      = (none, w.withFs (fsInsert (repo ++ [lit "projections", lit "todoLists"])
          (.file (jsonMarshalTodoLists (sliceAppend sl ⟨name⟩))) w.fs)) := by
    simp only [UpdateListOfTodos, hl, Event.getName]
    rw [osWriteFile_existing _ _ f _ hpl hf]
  have hg1 : fsLookup (fsInsert (repo ++ [lit "projections", lit "todoLists"])
      (.file (jsonMarshalTodoLists (sliceAppend sl ⟨name⟩))) w.fs)
      (repo ++ [lit "projections", lit "TodoListsCount"]) = some (.file g) := by
    rw [fsLookup_fsInsert_ne _ _ _ _ hne]; exact hg
  have hc1 : ReadTodoListsCountProjection repo
      (w.withFs (fsInsert (repo ++ [lit "projections", lit "todoLists"])
          (.file (jsonMarshalTodoLists (sliceAppend sl ⟨name⟩))) w.fs)) = .ok c := by
    simp only [ReadTodoListsCountProjection, World.withFs, osReadFile_of_lookup _ _ _ hpc hg1]
    exact ha
  have h2 : UpdateCountOfTodoLists repo (.TodoListCreated id name)
      (w.withFs (fsInsert (repo ++ [lit "projections", lit "todoLists"])
          (.file (jsonMarshalTodoLists (sliceAppend sl ⟨name⟩))) w.fs))
      = (none, w.withFs (fsInsert (repo ++ [lit "projections", lit "TodoListsCount"])
          (.file (Itoa (wrapInt64 (c + 1))))
          (fsInsert (repo ++ [lit "projections", lit "todoLists"])
          (.file (jsonMarshalTodoLists (sliceAppend sl ⟨name⟩))) w.fs))) := by
    simp only [UpdateCountOfTodoLists, hc1]
    simp only [World.withFs]
    rw [osWriteFile_existing _ _ g _ hpc hg1]
  refine ⟨w.withFs (fsInsert (repo ++ [lit "projections", lit "TodoListsCount"])
          (.file (Itoa (wrapInt64 (c + 1))))
          (fsInsert (repo ++ [lit "projections", lit "todoLists"])
          (.file (jsonMarshalTodoLists (sliceAppend sl ⟨name⟩))) w.fs)), ?_, ?_, ?_⟩
  · simp only [Handle, h1, h2]
  · have hlk : fsLookup (fsInsert (repo ++ [lit "projections", lit "TodoListsCount"])
          (.file (Itoa (wrapInt64 (c + 1))))
          (fsInsert (repo ++ [lit "projections", lit "todoLists"])
          (.file (jsonMarshalTodoLists (sliceAppend sl ⟨name⟩))) w.fs))
          (repo ++ [lit "projections", lit "todoLists"])
        = some (.file (jsonMarshalTodoLists (sliceAppend sl ⟨name⟩))) := by
      rw [fsLookup_fsInsert_ne _ _ _ _ (Ne.symm hne), fsLookup_fsInsert_self]
    simp only [ReadTodoListsProjection, World.withFs, osReadFile_of_lookup _ _ _ hpl hlk]
    have hvalid := jsonUnmarshal_valid f sl hu
    apply jsonUnmarshal_jsonMarshal
    intro u hu1
    simp only [sliceAppend, Option.getD_some, List.mem_append, List.mem_singleton] at hu1
    rcases hu1 with e | e
    · exact hvalid u e
    · rw [e]; exact hname
  · have hrc : ReadTodoListsCountProjection repo
        (w.withFs (fsInsert (repo ++ [lit "projections", lit "TodoListsCount"])
          (.file (Itoa (wrapInt64 (c + 1))))
          (fsInsert (repo ++ [lit "projections", lit "todoLists"])
          (.file (jsonMarshalTodoLists (sliceAppend sl ⟨name⟩))) w.fs)))
        = .ok (wrapInt64 (c + 1)) := by
      simp only [ReadTodoListsCountProjection, World.withFs,
        osReadFile_of_lookup _ _ _ hpc (fsLookup_fsInsert_self _ _ _)]
      exact Atoi_Itoa _ (wrapInt64_isInt64 _)
    refine ⟨hrc, fun hlt => ?_⟩
    rw [hrc, wrapInt64_succ c (Atoi_isInt64 g c ha).1 hlt]




/-! ## Paths and entry names -/

theorem splitOn_ne_nil (sep : Nat) (s : Bytes) : ∃ h t, splitOn sep s = h :: t := by
  induction s with
  | nil => exact ⟨[], [], rfl⟩
  | cons c rest ih =>
    obtain ⟨h, t, e⟩ := ih
    by_cases hc : c = sep
    · exact ⟨[], splitOn sep rest, by simp [splitOn, hc]⟩
    · exact ⟨c :: h, t, by simp [splitOn, hc, e]⟩

/-- No part of a split string holds the separator. -/
theorem splitOn_no_sep (sep : Nat) (s : Bytes) : ∀ c ∈ splitOn sep s, sep ∉ c := by
  induction s with
  | nil => intro c hc; simp [splitOn] at hc; simp [hc]
  | cons b rest ih =>
    obtain ⟨h, t, e⟩ := splitOn_ne_nil sep rest
    intro c hc
    by_cases hb : b = sep
    · simp only [splitOn, hb, if_true, List.mem_cons] at hc
      rcases hc with hc | hc
      · simp [hc]
      · exact ih c hc
    · simp only [splitOn, hb, if_false, e, List.mem_cons] at hc
      rw [e] at ih
      rcases hc with hc | hc
      · rw [hc]
        intro hm
        rcases List.mem_cons.mp hm with h1 | h1
        · exact hb h1.symm
        · exact ih h (by simp) h1
      · exact ih c (by simp [hc])

/-- Every byte of a part of a split string is a byte of the string. -/
theorem splitOn_subset (sep : Nat) (s : Bytes) : ∀ c ∈ splitOn sep s, ∀ b ∈ c, b ∈ s := by
  induction s with
  | nil => intro c hc; simp [splitOn] at hc; simp [hc]
  | cons b0 rest ih =>
    obtain ⟨h, t, e⟩ := splitOn_ne_nil sep rest
    intro c hc b hb
    by_cases hb0 : b0 = sep
    · simp only [splitOn, hb0, if_true, List.mem_cons] at hc
      rcases hc with hc | hc
      · rw [hc] at hb; simp at hb
      · exact List.mem_cons_of_mem _ (ih c hc b hb)
    · simp only [splitOn, hb0, if_false, e, List.mem_cons] at hc
      rw [e] at ih
      rcases hc with hc | hc
      · rw [hc] at hb
        rcases List.mem_cons.mp hb with h1 | h1
        · rw [h1]; exact List.mem_cons_self _ _
        · exact List.mem_cons_of_mem _ (ih h (by simp) b h1)
      · exact List.mem_cons_of_mem _ (ih c (by simp [hc]) b hb)

/-- The kind tag holds no dot. -/
theorem eventString_no_dot (event : Event) : 46 ∉ eventString event := by
  unfold eventString
  obtain ⟨h, t, e⟩ := splitOn_ne_nil 46 event.typeString
  have hmem : (splitOn 46 event.typeString).getLastD [] ∈ splitOn 46 event.typeString := by
    rw [e, List.getLastD_cons]
    cases t with
    | nil => simp [List.getLastD]
    | cons a l =>
      have := List.getLast_mem (List.cons_ne_nil a l)
      rw [List.getLastD_eq_getLast?, List.getLast?_eq_getLast _ (List.cons_ne_nil a l)]
      exact List.mem_cons_of_mem _ this
  exact splitOn_no_sep 46 _ _ hmem

/-- Splitting after a front part without the separator. -/
theorem splitOn_append (sep : Nat) (pre : Bytes) (hpre : sep ∉ pre) (s : Bytes) :
    ∃ h t, splitOn sep s = h :: t ∧ splitOn sep (pre ++ s) = (pre ++ h) :: t := by
  obtain ⟨h, t, e⟩ := splitOn_ne_nil sep s
  refine ⟨h, t, e, ?_⟩
  induction pre with
  | nil => simpa using e
  | cons b rest ih =>
    have hb : b ≠ sep := fun hh => hpre (by simp [hh])
    have hr : sep ∉ rest := fun hh => hpre (List.mem_cons_of_mem _ hh)
    simp [splitOn, hb, ih hr]

/-- Joining parts that hold no dot appends the non-empty ones. -/
theorem foldl_cleanStep (t : List Bytes) (ht : ∀ c ∈ t, 46 ∉ c) : ∀ acc : Path,
    t.foldl cleanStep acc = acc ++ t.filter (fun c => c ≠ []) := by
  induction t with
  | nil => intro acc; simp
  | cons c rest ih =>
    intro acc
    have hc := ht c (by simp)
    rw [List.foldl_cons, ih (fun x hx => ht x (List.mem_cons_of_mem _ hx))]
    by_cases he : c = []
    · simp [cleanStep, he]
    · have h1 : c ≠ [46] := fun hh => hc (by simp [hh])
      have h2 : c ≠ [46, 46] := fun hh => hc (by simp [hh])
      simp [cleanStep, he, h1, h2]

theorem formatNat_digits (n : Nat) : ∀ d ∈ formatNat n, 48 ≤ d ∧ d ≤ 57 := by
  induction n using Nat.strong_induction_on with
  | _ n ih =>
    intro d hd
    by_cases h10 : n < 10
    · rw [formatNat_small n h10] at hd
      simp only [List.mem_singleton] at hd
      omega
    · rw [formatNat_step n (by omega)] at hd
      rcases List.mem_append.mp hd with h | h
      · exact ih (n / 10) (by omega) d h
      · simp only [List.mem_singleton] at h
        omega

theorem sprintf06d_digits (n : Nat) : ∀ d ∈ sprintf06d n, 48 ≤ d ∧ d ≤ 57 := by
  intro d hd
  unfold sprintf06d at hd
  rcases List.mem_append.mp hd with h | h
  · have := List.eq_of_mem_replicate h
    omega
  · exact formatNat_digits n d h

/-- The location of a stream entry: the stream directory, then a component
that starts with the padded sequence number and an underscore, then any
further components a slash in the kind tag makes. -/
theorem joinPath_entryName (D : Path) (n : Nat) (event : Event) :
    ∃ h0 t, joinPath D (entryName n (eventString event))
      = D ++ (sprintf06d n ++ 95 :: h0) :: t := by
  have hpre : 47 ∉ sprintf06d n ++ [95] := by
    intro hm
    rcases List.mem_append.mp hm with h | h
    · have := sprintf06d_digits n 47 h; omega
    · simp at h
  obtain ⟨h, t, e1, e2⟩ := splitOn_append 47 (sprintf06d n ++ [95]) hpre (eventString event)
  have hK := eventString_no_dot event
  have hsub := splitOn_subset 47 (eventString event)
  rw [e1] at hsub
  have hnd : ∀ c ∈ (sprintf06d n ++ [95] ++ h) :: t, 46 ∉ c := by
    intro c hc hm
    rcases List.mem_cons.mp hc with hc | hc
    · rw [hc] at hm
      rcases List.mem_append.mp hm with h1 | h1
      · rcases List.mem_append.mp h1 with h2 | h2
        · have := sprintf06d_digits n 46 h2; omega
        · simp at h2
      · exact hK (hsub h (by simp) 46 h1)
    · exact hK (hsub c (List.mem_cons_of_mem _ hc) 46 hm)
  refine ⟨h, t.filter (fun c => c ≠ []), ?_⟩
  unfold joinPath entryName
  have e3 : sprintf06d n ++ 95 :: eventString event
      = (sprintf06d n ++ [95]) ++ eventString event := by simp
  rw [e3, e2, foldl_cleanStep _ hnd]
  simp




/-! ## Directories -/

theorem fsLookup_mem (fs : FS) (p : Path) (n : Node) (h : fsLookup fs p = some n) :
    (p, n) ∈ fs := by
  induction fs with
  | nil => simp [fsLookup] at h
  | cons kv rest ih =>
    obtain ⟨q, m⟩ := kv
    simp only [fsLookup] at h
    split at h
    · rename_i hq
      simp only [Option.some.injEq] at h
      rw [hq, h]; exact List.mem_cons_self _ _
    · exact List.mem_cons_of_mem _ (ih h)

theorem wellFormed_lookup (fs : FS) (hwf : wellFormed fs = true) (p : Path) (n : Node)
    (h : fsLookup fs p = some n) : p ≠ [] ∧ fsIsDir fs p.dropLast = true := by
  have hm := fsLookup_mem fs p n h
  unfold wellFormed at hwf
  have := List.all_eq_true.mp hwf (p, n) hm
  simpa using this

theorem fsExists_of_isDir (fs : FS) (p : Path) (h : fsIsDir fs p = true) :
    fsExists fs p = true := by
  unfold fsIsDir at h
  unfold fsExists
  rcases Bool.or_eq_true _ _ |>.mp h with h1 | h1
  · simp [h1]
  · simp only [decide_eq_true_eq] at h1
    simp [h1]

theorem fsExists_lookup (fs : FS) (p : Path) (hp : p ≠ []) (h : fsExists fs p = true) :
    ∃ n, fsLookup fs p = some n := by
  unfold fsExists at h
  simp only [Bool.or_eq_true, decide_eq_true_eq, hp, false_or] at h
  exact Option.isSome_iff_exists.mp h

theorem mem_dirEntries (fs : FS) (D p : Path) (n : Node) (hm : (p, n) ∈ fs)
    (he : isEntryOf D p = true) : p ∈ dirEntries fs D := by
  unfold dirEntries
  exact List.mem_map.mpr ⟨(p, n), List.mem_filter.mpr ⟨hm, he⟩, rfl⟩

theorem isEntryOf_snoc (D : Path) (c : Bytes) : isEntryOf D (D ++ [c]) = true := by
  simp [isEntryOf]

/-- In a well-formed file system, a location below a directory `D` makes
`D` a directory with at least one entry. -/
theorem wellFormed_below (fs : FS) (hwf : wellFormed fs = true) (D : Path) (c : Bytes)
    (cs : List Bytes) : fsExists fs (D ++ c :: cs) = true →
    fsIsDir fs D = true ∧ dirEntries fs D ≠ [] := by
  induction cs using List.reverseRecOn with
  | nil =>
    intro h
    obtain ⟨n, hn⟩ := fsExists_lookup fs (D ++ [c]) (by simp) h
    have hw := wellFormed_lookup fs hwf _ n hn
    refine ⟨by simpa using hw.2, ?_⟩
    have := mem_dirEntries fs D (D ++ [c]) n (fsLookup_mem _ _ _ hn) (isEntryOf_snoc D c)
    exact List.ne_nil_of_mem this
  | append_singleton l a ih =>
    intro h
    have e : D ++ c :: (l ++ [a]) = (D ++ c :: l) ++ [a] := by simp
    rw [e] at h
    obtain ⟨n, hn⟩ := fsExists_lookup fs _ (by simp) h
    have hw := wellFormed_lookup fs hwf _ n hn
    rw [List.dropLast_concat] at hw
    exact ih (fsExists_of_isDir _ _ hw.2)

/-! ## UpdateStream on a stream that is already there -/

/-- An existing stream directory without entries makes `UpdateStream` fail
on `Mkdir`, with nothing changed. -/
theorem UpdateStream_empty_dir (repo : Path) (event : Event) (w : World)
    (hex : fsExists w.fs (streamDir repo event) = true)
    (hempty : (osReadDir w.fs (streamDir repo event)).1 = []) :
    UpdateStream repo event w = (([], some .alreadyExists), w) := by
  simp [UpdateStream, hempty, osMkdir, hex, World.withFs]

/-- The location `UpdateStream` works on is `streamFile`. -/
theorem streamFile_eq (repo : Path) (event : Event) (w : World) :
    joinPath (streamDir repo event)
      (entryName ((osReadDir w.fs (streamDir repo event)).1.length + 1) (eventString event))
      = streamFile repo event w := by
  unfold streamFile seqNum
  exact Eq.refl _

/-! ## Sequence numbers in entry names -/

theorem digitsValue_append (a b : Bytes) :
    digitsValue (a ++ b) = b.foldl (fun acc d => acc * 10 + (d - 48)) (digitsValue a) := by
  simp [digitsValue, List.foldl_append]

theorem digitsValue_formatNat (n : Nat) : digitsValue (formatNat n) = n := by
  induction n using Nat.strong_induction_on with
  | _ n ih =>
    by_cases h10 : n < 10
    · rw [formatNat_small n h10]; simp [digitsValue]
    · rw [formatNat_step n (by omega), digitsValue_append, ih (n / 10) (by omega)]
      simp only [List.foldl_cons, List.foldl_nil]
      omega

theorem digitsValue_zeros (z : Nat) (ds : Bytes) :
    digitsValue (List.replicate z 48 ++ ds) = digitsValue ds := by
  induction z with
  | zero => simp
  | succ z ih =>
    rw [digitsValue_append] at ih ⊢
    have hz : digitsValue (List.replicate (z + 1) 48) = 0 := by
      have : ∀ m, digitsValue (List.replicate m 48) = 0 := by
        intro m
        induction m with
        | zero => rfl
        | succ m ihm =>
          rw [List.replicate_succ']
          rw [digitsValue_append, ihm]; rfl
      exact this _
    rw [hz]
    rfl

theorem digitsValue_sprintf06d (n : Nat) : digitsValue (sprintf06d n) = n := by
  unfold sprintf06d
  simp only
  rw [digitsValue_zeros, digitsValue_formatNat]

/-- Two digit strings that are each followed by an underscore and agree up
to it are equal. -/
theorem digits_underscore_unique (a : Bytes) : ∀ (b x y : Bytes),
    (∀ d ∈ a, 48 ≤ d ∧ d ≤ 57) → (∀ d ∈ b, 48 ≤ d ∧ d ≤ 57) →
    a ++ 95 :: x = b ++ 95 :: y → a = b := by
  induction a with
  | nil =>
    intro b x y _ hb h
    cases b with
    | nil => rfl
    | cons d b =>
      simp only [List.nil_append, List.cons_append, List.cons.injEq] at h
      have := hb d (by simp)
      omega
  | cons c a ih =>
    intro b x y ha hb h
    cases b with
    | nil =>
      simp only [List.nil_append, List.cons_append, List.cons.injEq] at h
      have := ha c (by simp)
      omega
    | cons d b =>
      simp only [List.cons_append, List.cons.injEq] at h
      rw [h.1, ih b x y (fun e he => ha e (List.mem_cons_of_mem _ he))
        (fun e he => hb e (List.mem_cons_of_mem _ he)) h.2]

/-- The padded number in front of the underscore determines the number. -/
theorem sprintf06d_underscore_unique (j m : Nat) (x y : Bytes)
    (h : sprintf06d j ++ 95 :: x = sprintf06d m ++ 95 :: y) : j = m := by
  have := digits_underscore_unique _ _ x y (sprintf06d_digits j) (sprintf06d_digits m) h
  rw [← digitsValue_sprintf06d j, this, digitsValue_sprintf06d]

/-! ## Entries of a directory under insertion -/

theorem fsInsert_absent (p : Path) (n : Node) (fs : FS) (h : fsLookup fs p = none) :
    fsInsert p n fs = fs ++ [(p, n)] := by
  induction fs with
  | nil => rfl
  | cons kv rest ih =>
    obtain ⟨q, m⟩ := kv
    simp only [fsLookup] at h
    split at h
    · contradiction
    · rename_i hq
      simp [fsInsert, hq, ih h]

theorem fsInsert_keys (p : Path) (n m : Node) (fs : FS) (h : fsLookup fs p = some m) :
    (fsInsert p n fs).map Prod.fst = fs.map Prod.fst := by
  induction fs with
  | nil => simp [fsLookup] at h
  | cons kv rest ih =>
    obtain ⟨q, m1⟩ := kv
    simp only [fsLookup] at h
    split at h
    · rename_i hq
      simp [fsInsert, hq]
    · rename_i hq
      simp [fsInsert, hq, ih h]

theorem dirEntries_eq (fs : FS) (D : Path) :
    dirEntries fs D = (fs.map Prod.fst).filter (fun p => isEntryOf D p) := by
  unfold dirEntries
  induction fs with
  | nil => rfl
  | cons kv rest ih =>
    simp only [List.filter_cons, List.map_cons]
    split <;> simp [ih]

theorem dirEntries_insert_present (fs : FS) (D p : Path) (n m : Node)
    (h : fsLookup fs p = some m) : dirEntries (fsInsert p n fs) D = dirEntries fs D := by
  rw [dirEntries_eq, dirEntries_eq, fsInsert_keys p n m fs h]

theorem dirEntries_insert_absent (fs : FS) (D p : Path) (n : Node)
    (h : fsLookup fs p = none) :
    dirEntries (fsInsert p n fs) D = dirEntries fs D ++ (if isEntryOf D p then [p] else []) := by
  rw [fsInsert_absent p n fs h]
  unfold dirEntries
  rw [List.filter_append, List.map_append]
  congr 1
  by_cases he : isEntryOf D p = true <;> simp [he]

theorem mem_fsLookup (fs : FS) (p : Path) (n : Node) (h : (p, n) ∈ fs) :
    ∃ m, fsLookup fs p = some m := by
  induction fs with
  | nil => simp at h
  | cons kv rest ih =>
    obtain ⟨q, m1⟩ := kv
    by_cases hq : q = p
    · exact ⟨m1, by simp [fsLookup, hq]⟩
    · rcases List.mem_cons.mp h with h1 | h1
      · simp only [Prod.mk.injEq] at h1
        exact absurd h1.1.symm hq
      · obtain ⟨m, hm⟩ := ih h1
        exact ⟨m, by simp [fsLookup, hq, hm]⟩




/-! ## A run of appends to one stream -/

/-- Before the first append, in a well-formed file system without the
stream directory. -/
theorem StreamInv_init (fs : FS) (D : Path) (hwf : wellFormed fs = true)
    (habs : fsExists fs D = false) : StreamInv fs D 0 := by
  have hD : D ≠ [] := by
    intro h; subst h; simp [fsExists] at habs
  have hbelow : ∀ c cs, fsExists fs (D ++ c :: cs) = false := by
    intro c cs
    by_contra hc
    have hc1 : fsExists fs (D ++ c :: cs) = true := by simpa using hc
    have := (wellFormed_below fs hwf D c cs hc1).1
    rw [fsExists_of_isDir fs D this] at habs
    contradiction
  refine ⟨hD, fun _ => habs, fun h => absurd h (by omega), ?_, ?_⟩
  · intro sfx n h
    cases sfx with
    | nil => exact Or.inl rfl
    | cons c cs =>
      have := hbelow c cs
      simp [fsExists, h] at this
  · rw [List.length_eq_zero]
    by_contra hne
    obtain ⟨p, hp⟩ := List.exists_mem_of_ne_nil _ hne
    unfold dirEntries at hp
    obtain ⟨kv, hkv, hfst⟩ := List.mem_map.mp hp
    obtain ⟨hm, he⟩ := List.mem_filter.mp hkv
    obtain ⟨q, n⟩ := kv
    simp only at hfst he
    subst hfst
    simp only [isEntryOf, Bool.and_eq_true, decide_eq_true_eq] at he
    obtain ⟨m, hl⟩ := mem_fsLookup fs q n hm
    have hq : q = D ++ [q.getLast he.1] := by
      exact (List.dropLast_append_getLast he.1).symm.trans
        (congrArg (fun l => l ++ [q.getLast he.1]) he.2)
    have := hbelow (q.getLast he.1) []
    rw [← hq] at this
    simp [fsExists, hl] at this

/-- The number of entries `UpdateStream` counts. -/
theorem StreamInv_count (fs : FS) (D : Path) (k : Nat) (h : StreamInv fs D k) :
    (osReadDir fs D).1.length = k := by
  obtain ⟨_, _, hdir, _, hlen⟩ := h
  unfold osReadDir
  by_cases hd : fsIsDir fs D = true
  · simp [hd, hlen]
  · have hk : k = 0 := by
      by_contra hk
      exact hd (hdir (by omega))
    have hd1 : fsIsDir fs D = false := by simpa using hd
    rw [hd1]
    simp only [Bool.false_eq_true, if_false]
    split <;> simp [hk]

/-- A location for append number `k + 1` is not yet taken. -/
theorem StreamInv_fresh (fs : FS) (D : Path) (k : Nat)
    (hkeys : ∀ sfx n, fsLookup fs (D ++ sfx) = some n →
      sfx = [] ∨ ∃ j x content, 1 ≤ j ∧ j ≤ k ∧ sfx = [sprintf06d j ++ 95 :: x] ∧
        n = .file content)
    (h0 : Bytes) (t : List Bytes) :
    fsLookup fs (D ++ (sprintf06d (k + 1) ++ 95 :: h0) :: t) = none := by
  cases hl : fsLookup fs (D ++ (sprintf06d (k + 1) ++ 95 :: h0) :: t) with
  | none => rfl
  | some n =>
    exfalso
    rcases hkeys _ n hl with h | ⟨j, x, content, hj1, hj2, hs, _⟩
    · simp at h
    · simp only [List.cons.injEq] at hs
      have := sprintf06d_underscore_unique _ _ _ _ hs.1
      omega




theorem append_ne_self (D : Path) (c : Bytes) (cs : List Bytes) : D ++ c :: cs ≠ D := by
  intro h
  have := congrArg List.length h
  simp at this

theorem isEntryOf_self (D : Path) (hD : D ≠ []) : isEntryOf D D = false := by
  simp only [isEntryOf, Bool.and_eq_false_imp, decide_eq_true_eq, decide_eq_false_iff_not]
  intro _ h
  have := congrArg List.length h
  simp only [List.length_dropLast] at this
  have := List.length_pos.mpr hD
  omega

/-- The directory step of `UpdateStream`: when it succeeds the stream
directory is there, with what the stream held before. -/
theorem StreamMid_of_mkdir (fs fs1 : FS) (D : Path) (k : Nat) (h : StreamInv fs D k)
    (hmk : (if (osReadDir fs D).1.length = 0 then osMkdir fs D else (none, fs)) = (none, fs1)) :
    StreamMid fs1 D k := by
  have hcount := StreamInv_count fs D k h
  obtain ⟨hD, habs, hdir, hkeys, hlen⟩ := h
  rw [hcount] at hmk
  by_cases hk : k = 0
  · rw [if_pos hk] at hmk
    have hex := habs hk
    have hnone : fsLookup fs D = none := by
      simp only [fsExists, Bool.or_eq_false_iff, decide_eq_false_iff_not] at hex
      simpa using hex.2
    unfold osMkdir at hmk
    rw [hex] at hmk
    simp only [Bool.false_eq_true, if_false] at hmk
    split at hmk
    · simp at hmk
    · simp only [Prod.mk.injEq, true_and] at hmk
      subst hmk
      refine ⟨hD, by simp [fsIsDir, fsLookup_fsInsert_self], ?_, ?_⟩
      · intro sfx n hl
        cases sfx with
        | nil => exact Or.inl rfl
        | cons c cs =>
          rw [fsLookup_fsInsert_ne _ _ _ _ (append_ne_self D c cs)] at hl
          exact hkeys _ n hl
      · rw [dirEntries_insert_absent fs D D .dir hnone, isEntryOf_self D hD]
        simpa using hlen
  · rw [if_neg hk] at hmk
    simp only [Prod.mk.injEq, true_and] at hmk
    subst hmk
    exact ⟨hD, hdir (by omega), hkeys, hlen⟩

/-- The file step of `UpdateStream` at a fresh direct entry: it succeeds
and leaves exactly the written bytes. -/
theorem StreamMid_write (fs1 : FS) (D : Path) (k : Nat) (h : StreamMid fs1 D k)
    (h0 bytes : Bytes) :
    osOpenFileCreate fs1 (D ++ [sprintf06d (k + 1) ++ 95 :: h0])
      = (none, fsInsert (D ++ [sprintf06d (k + 1) ++ 95 :: h0]) (.file []) fs1) ∧
    osAppend (fsInsert (D ++ [sprintf06d (k + 1) ++ 95 :: h0]) (.file []) fs1)
        (D ++ [sprintf06d (k + 1) ++ 95 :: h0]) bytes
      = (none, fsInsert (D ++ [sprintf06d (k + 1) ++ 95 :: h0]) (.file bytes)
          (fsInsert (D ++ [sprintf06d (k + 1) ++ 95 :: h0]) (.file []) fs1)) ∧
    StreamInv (fsInsert (D ++ [sprintf06d (k + 1) ++ 95 :: h0]) (.file bytes)
          (fsInsert (D ++ [sprintf06d (k + 1) ++ 95 :: h0]) (.file []) fs1)) D (k + 1) := by
  obtain ⟨hD, hdir, hkeys, hlen⟩ := h
  have hfresh := StreamInv_fresh fs1 D k hkeys h0 []
  have hne : D ++ [sprintf06d (k + 1) ++ 95 :: h0] ≠ [] := by simp
  have hneD : D ++ [sprintf06d (k + 1) ++ 95 :: h0] ≠ D := append_ne_self D _ []
  refine ⟨?_, ?_, ?_⟩
  · simp [osOpenFileCreate, hfresh, parentError, hdir]
  · simp [osAppend, fsLookup_fsInsert_self]
  · refine ⟨hD, fun hk => absurd hk (by omega), fun _ => ?_, ?_, ?_⟩
    · have hl : fsLookup fs1 D = some .dir := by
        simpa [fsIsDir, hD] using hdir
      simp [fsIsDir, fsLookup_fsInsert_ne _ _ _ _ (Ne.symm hneD), hl]
    · intro sfx n hl
      by_cases hs : D ++ sfx = D ++ [sprintf06d (k + 1) ++ 95 :: h0]
      · rw [hs, fsLookup_fsInsert_self] at hl
        simp only [Option.some.injEq] at hl
        right
        exact ⟨k + 1, h0, bytes, by omega, le_refl _, List.append_cancel_left hs, hl.symm⟩
      · rw [fsLookup_fsInsert_ne _ _ _ _ hs, fsLookup_fsInsert_ne _ _ _ _ hs] at hl
        rcases hkeys sfx n hl with h1 | ⟨j, x, content, hj1, hj2, hsx, hn⟩
        · exact Or.inl h1
        · exact Or.inr ⟨j, x, content, hj1, by omega, hsx, hn⟩
    · rw [dirEntries_insert_present _ D _ _ (.file []) (fsLookup_fsInsert_self _ _ _),
        dirEntries_insert_absent fs1 D _ _ hfresh, isEntryOf_snoc]
      simp [hlen]




/-- The file step of `UpdateStream` succeeds only at a direct entry of the
stream directory. -/
theorem StreamMid_direct (fs1 fs2 : FS) (D : Path) (k : Nat) (h : StreamMid fs1 D k)
    (h0 : Bytes) (t : List Bytes)
    (hop : osOpenFileCreate fs1 (D ++ (sprintf06d (k + 1) ++ 95 :: h0) :: t) = (none, fs2)) :
    t = [] := by
  obtain ⟨hD, hdir, hkeys, hlen⟩ := h
  have hfresh := StreamInv_fresh fs1 D k hkeys h0 t
  unfold osOpenFileCreate at hop
  rw [hfresh] at hop
  simp only [List.append_eq_nil, reduceCtorEq, and_false, if_false] at hop
  split at hop
  · simp at hop
  · rename_i hpe
    by_contra ht
    unfold parentError at hpe
    split at hpe
    · rename_i hpd
      have e : (D ++ (sprintf06d (k + 1) ++ 95 :: h0) :: t).dropLast
          = D ++ (sprintf06d (k + 1) ++ 95 :: h0) :: t.dropLast := by
        rw [List.dropLast_append_of_ne_nil _ (by simp), List.dropLast_cons_of_ne_nil ht]
      rw [e] at hpd
      have hl : fsLookup fs1 (D ++ (sprintf06d (k + 1) ++ 95 :: h0) :: t.dropLast)
          = some .dir := by
        simpa [fsIsDir] using hpd
      rcases hkeys _ _ hl with h1 | ⟨j, x, content, _, _, _, hn⟩
      · simp at h1
      · simp at hn
    · split at hpe <;> simp at hpe

/-- One successful append to a stream with `k` entries: it computes
sequence number `k + 1`, writes a direct entry of the stream directory
whose name starts with the padded `k + 1` and an underscore, returns that
location as the file name, and leaves a stream with `k + 1` entries. -/
theorem UpdateStream_step (repo : Path) (event : Event) (w : World) (k : Nat)
    (hinv : StreamInv w.fs (streamDir repo event) k) (name : Bytes) (w1 : World)
    (hrun : UpdateStream repo event w = ((name, none), w1)) :
    seqNum repo event w = k + 1 ∧ StreamInv w1.fs (streamDir repo event) (k + 1) ∧
    ∃ x, joinPath (streamDir repo event) (entryName (k + 1) (eventString event))
        = streamDir repo event ++ [sprintf06d (k + 1) ++ 95 :: x] ∧
      name = pathString (streamDir repo event ++ [sprintf06d (k + 1) ++ 95 :: x]) := by
  have hcount := StreamInv_count w.fs _ k hinv
  have hseq : seqNum repo event w = k + 1 := by simp [seqNum, hcount]
  obtain ⟨h0, t, hshape⟩ := joinPath_entryName (streamDir repo event) (k + 1) event
  have hfile : streamFile repo event w
      = streamDir repo event ++ (sprintf06d (k + 1) ++ 95 :: h0) :: t := by
    unfold streamFile; rw [hseq, hshape]
  simp only [UpdateStream] at hrun
  simp only [streamFile_eq] at hrun
  split at hrun
  · simp at hrun
  · rename_i fs1 hmk
    have hmid := StreamMid_of_mkdir w.fs fs1 _ k hinv hmk
    split at hrun
    · simp at hrun
    · rename_i fs2 hop
      rw [hfile] at hop hrun
      have ht := StreamMid_direct fs1 fs2 _ k hmid h0 t hop
      subst ht
      split at hrun
      · simp at hrun
      · rename_i bytes hjson
        obtain ⟨hw1, hw2, hw3⟩ := StreamMid_write fs1 _ k hmid h0 bytes
        rw [hw1] at hop
        simp only [Prod.mk.injEq, true_and] at hop
        subst hop
        rw [hw2] at hrun
        simp only [Prod.mk.injEq, and_true, true_and] at hrun
        refine ⟨hseq, ?_, h0, hshape, hrun.1.symm⟩
        rw [← hrun.2]
        exact hw3

theorem splitOn_single (sep : Nat) (s : Bytes) (h : sep ∉ s) : splitOn sep s = [s] := by
  induction s with
  | nil => rfl
  | cons c rest ih =>
    have hc : c ≠ sep := fun hh => h (by simp [hh])
    have hr : sep ∉ rest := fun hh => h (List.mem_cons_of_mem _ hh)
    simp [splitOn, hc, ih hr]

/-- The location of an entry for the kind tag `TodoListCreated`. -/
theorem joinPath_TodoListCreated (D : Path) (n : Nat) :
    joinPath D (entryName n (lit "TodoListCreated"))
      = D ++ [sprintf06d n ++ 95 :: lit "TodoListCreated"] := by
  have hmem : ∀ b ∈ entryName n (lit "TodoListCreated"), b ≠ 47 ∧ b ≠ 46 := by
    intro b hb
    unfold entryName at hb
    rcases List.mem_append.mp hb with h | h
    · have := sprintf06d_digits n b h; omega
    · have hall : ∀ c ∈ (95 :: lit "TodoListCreated" : Bytes), c ≠ 47 ∧ c ≠ 46 := by decide
      exact hall b h
  have h47 : 47 ∉ entryName n (lit "TodoListCreated") := fun h => (hmem 47 h).1 rfl
  have h46 : 46 ∉ entryName n (lit "TodoListCreated") := fun h => (hmem 46 h).2 rfl
  unfold joinPath
  rw [splitOn_single 47 _ h47, foldl_cleanStep _ (by simpa using h46)]
  have hne : entryName n (lit "TodoListCreated") ≠ [] := by simp [entryName]
  simp [hne, entryName]

/-- An append of a `TodoListCreated` event to a stream with `k` entries
succeeds, when the directory of the streams is there for the first one. -/
theorem UpdateStream_progress (repo : Path) (id name : Bytes) (w : World) (k : Nat)
    (hinv : StreamInv w.fs (streamDir repo (.TodoListCreated id name)) k)
    (hparent : k = 0 → fsIsDir w.fs (streamDir repo (.TodoListCreated id name)).dropLast = true) :
    (UpdateStream repo (.TodoListCreated id name) w).1.2 = none := by
  have hcount := StreamInv_count w.fs _ k hinv
  have hseq : seqNum repo (.TodoListCreated id name) w = k + 1 := by simp [seqNum, hcount]
  have hK : eventString (.TodoListCreated id name) = lit "TodoListCreated" := rfl
  have hfile : streamFile repo (.TodoListCreated id name) w
      = streamDir repo (.TodoListCreated id name)
        ++ [sprintf06d (k + 1) ++ 95 :: lit "TodoListCreated"] := by
    unfold streamFile; rw [hseq, hK, joinPath_TodoListCreated]
  have hmk : ∃ fs1, (if (osReadDir w.fs (streamDir repo (.TodoListCreated id name))).1.length = 0
      then osMkdir w.fs (streamDir repo (.TodoListCreated id name)) else (none, w.fs))
      = (none, fs1) := by
    rw [hcount]
    by_cases hk : k = 0
    · rw [if_pos hk]
      have hex := hinv.2.1 hk
      refine ⟨fsInsert (streamDir repo (.TodoListCreated id name)) .dir w.fs, ?_⟩
      simp only [osMkdir, hex, Bool.false_eq_true, if_false, parentError, hparent hk, if_true]
    · rw [if_neg hk]; exact ⟨_, rfl⟩
  obtain ⟨fs1, hmk⟩ := hmk
  have hmid := StreamMid_of_mkdir w.fs fs1 _ k hinv hmk
  obtain ⟨hw1, hw2, _⟩ := StreamMid_write fs1 _ k hmid (lit "TodoListCreated")
    (123 :: (lit "\"ID\":" ++ appendString id ++ 44 :: (lit "\"Name\":"
      ++ appendString name ++ [125])))
  simp only [UpdateStream]
  simp only [streamFile_eq]
  rw [hmk, hfile]
  simp only [hw1, jsonMarshalEvent, hw2]




theorem UpdateStream_result (repo : Path) (event : Event) (w : World)
    (h : (UpdateStream repo event w).1.2 = none) :
    UpdateStream repo event w
      = (((UpdateStream repo event w).1.1, none), (UpdateStream repo event w).2) := by
  rw [← h]

/-- A run of successful appends to one stream that starts with `k`
entries: the calls compute the sequence numbers `k + 1`, `k + 2`, … in
order, and each returns a direct entry of the stream directory named
after its number and the kind tag of its event. -/
theorem UpdateStreamAll_run (repo : Path) (D : Path) : ∀ (es : List Event) (w : World) (k : Nat),
    StreamInv w.fs D k → (∀ e ∈ es, streamDir repo e = D) →
    (∀ r ∈ (UpdateStreamAll repo es w).1, r.err = none) →
    (UpdateStreamAll repo es w).1.map (fun r => r.seq) = List.range' (k + 1) es.length ∧
    ∀ i r, (UpdateStreamAll repo es w).1[i]? = some r →
      r.seq = k + 1 + i ∧
      ∃ e x, es[i]? = some e ∧
        joinPath D (entryName (k + 1 + i) (eventString e))
          = D ++ [sprintf06d (k + 1 + i) ++ 95 :: x] ∧
        r.name = pathString (D ++ [sprintf06d (k + 1 + i) ++ 95 :: x]) := by
  intro es
  induction es with
  | nil =>
    intro w k _ _ _
    simp [UpdateStreamAll]
  | cons e es ih =>
    intro w k hinv hD hok
    have hDe : streamDir repo e = D := hD e (by simp)
    simp only [UpdateStreamAll, List.mem_cons, forall_eq_or_imp] at hok
    obtain ⟨hok0, hokr⟩ := hok
    have hrun := UpdateStream_result repo e w hok0
    rw [← hDe] at hinv
    obtain ⟨hseq, hinv1, x, hshape, hname⟩ := UpdateStream_step repo e w k hinv _ _ hrun
    rw [hDe] at hinv1 hshape hname
    obtain ⟨ih1, ih2⟩ := ih (UpdateStream repo e w).2 (k + 1) hinv1
      (fun e1 he1 => hD e1 (List.mem_cons_of_mem _ he1)) hokr
    refine ⟨?_, ?_⟩
    · simp only [UpdateStreamAll, List.map_cons, List.length_cons, List.range'_succ, hseq, ih1]
    · intro i r hr
      cases i with
      | zero =>
        simp only [UpdateStreamAll, List.getElem?_cons_zero, Option.some.injEq] at hr
        subst hr
        exact ⟨hseq, e, x, by simp, hshape, hname⟩
      | succ i =>
        simp only [UpdateStreamAll, List.getElem?_cons_succ] at hr
        obtain ⟨h1, e1, x1, h2, h3, h4⟩ := ih2 i r hr
        have e0 : k + 1 + 1 + i = k + 1 + (i + 1) := by omega
        rw [e0] at h1 h3 h4
        exact ⟨h1, e1, x1, by simpa using h2, h3, h4⟩

/-- Every append of a run of `TodoListCreated` events with one identifier
succeeds, when the directory of the streams is there for the first one. -/
theorem UpdateStreamAll_TodoListCreated_ok (repo : Path) (id name : Bytes) : ∀ (n : Nat)
    (w : World) (k : Nat),
    StreamInv w.fs (streamDir repo (.TodoListCreated id name)) k →
    (k = 0 → fsIsDir w.fs (streamDir repo (.TodoListCreated id name)).dropLast = true) →
    ∀ r ∈ (UpdateStreamAll repo (List.replicate n (.TodoListCreated id name)) w).1,
      r.err = none := by
  intro n
  induction n with
  | zero => intro w k _ _ r hr; simp [UpdateStreamAll] at hr
  | succ n ih =>
    intro w k hinv hpar
    have hok0 := UpdateStream_progress repo id name w k hinv hpar
    have hrun := UpdateStream_result repo _ w hok0
    obtain ⟨_, hinv1, _⟩ := UpdateStream_step repo _ w k hinv _ _ hrun
    have := ih (UpdateStream repo (.TodoListCreated id name) w).2 (k + 1) hinv1
      (fun h => absurd h (by omega))
    intro r hr
    simp only [List.replicate_succ, UpdateStreamAll, List.mem_cons] at hr
    rcases hr with h | h
    · rw [h]; exact hok0
    · exact this r h

theorem parseUintLoop_cons_digit (d acc : Nat) (rest : Bytes) (hd : d < 10)
    (h : acc * 10 + d < 2 ^ 64) :
    parseUintLoop ((48 + d) :: rest) acc = parseUintLoop rest (acc * 10 + d) := by
  have := parseUintLoop_append [48 + d] rest acc
  rw [parseUintLoop_digit d acc hd h] at this
  simpa using this

/-- Below one million the first six bytes of an entry name are the digits
of its sequence number. -/
theorem entry_six_digits (n : Nat) (x : Bytes) (hn : n ≤ 999999) :
    parseUint ((sprintf06d n ++ 95 :: x).take 6) = .ok n := by
  have h64 : (2 : Nat) ^ 64 = 18446744073709551616 := by norm_num
  rw [sprintf06d_six n hn]
  simp only [List.cons_append, List.nil_append, List.take_succ_cons, List.take_zero, parseUint]
  rw [parseUintLoop_cons_digit _ _ _ (by omega) (by omega),
    parseUintLoop_cons_digit _ _ _ (by omega) (by omega),
    parseUintLoop_cons_digit _ _ _ (by omega) (by omega),
    parseUintLoop_cons_digit _ _ _ (by omega) (by omega),
    parseUintLoop_cons_digit _ _ _ (by omega) (by omega),
    parseUintLoop_cons_digit _ _ _ (by omega) (by omega)]
  simp only [parseUintLoop]
  congr 1
  omega




/-! ## Witnesses, counterexamples and the claims about runs and names -/

/-- C1, as amended: in every storage state in which the todoLists
projection parses to a list `L` and the TodoListsCount projection parses to
an integer `c`, a successful `Handle` of a `TodoListCreated` event whose
name is well-formed UTF-8 leaves the todoLists projection reading back as
`L` with exactly one element appended whose `Name` is the event's name, and
leaves the TodoListsCount projection reading back as `c + 1` in 64-bit
arithmetic, which is `c + 1` whenever `c` is below the largest `int`. -/
theorem Handle_TodoListCreated (repo : Path) (w : World) (id name : Bytes)
    (sl : Option (List TodoList)) (c : Int)
    (hl : ReadTodoListsProjection repo w = .ok sl)
    (hc : ReadTodoListsCountProjection repo w = .ok c)
    (hname : validUTF8 name = true) (w1 : World)
    (hok : Handle repo (.TodoListCreated id name) w = (none, w1)) :
    ReadTodoListsProjection repo w1 = .ok (some (sl.getD [] ++ [⟨name⟩])) ∧
    ReadTodoListsCountProjection repo w1 = .ok (wrapInt64 (c + 1)) ∧
    (c < 2 ^ 63 - 1 → ReadTodoListsCountProjection repo w1 = .ok (c + 1)) := by
  obtain ⟨w2, h2, hr⟩ := Handle_TodoListCreated_spec repo w id name sl c hl hc hname
  rw [hok] at h2
  simp only [Prod.mk.injEq, true_and] at h2
  rw [h2]
  exact hr

/-- C1, witness: the end-to-end scenario on the initial world. -/
theorem Handle_TodoListCreated_witness :
    ReadTodoListsProjection exampleRepo (Handle exampleRepo exampleEvent initialWorld).2
      = .ok (some ((some ([] : List TodoList)).getD [] ++ [⟨lit "Groceries"⟩])) ∧
    ReadTodoListsCountProjection exampleRepo (Handle exampleRepo exampleEvent initialWorld).2
      = .ok (wrapInt64 (0 + 1)) ∧
    ((0 : Int) < 2 ^ 63 - 1 →
      ReadTodoListsCountProjection exampleRepo (Handle exampleRepo exampleEvent initialWorld).2
        = .ok (0 + 1)) :=
  Handle_TodoListCreated exampleRepo initialWorld (lit "id1") (lit "Groceries") (some []) 0
    (by decide) (by decide) (by decide) (Handle exampleRepo exampleEvent initialWorld).2
    (by decide)

/-- C1, counterexample: on the initial world (list `[]`, count `0`) a
successful `Handle` of an event named by the byte `0xFF` leaves a list whose
new element is named U+FFFD, not `0xFF`; and on a world whose count is the
largest `int`, the count reads back as the smallest `int`, not `c + 1`. -/
theorem Handle_TodoListCreated_counterexample :
    (ReadTodoListsProjection exampleRepo initialWorld = .ok (some []) ∧
     ReadTodoListsCountProjection exampleRepo initialWorld = .ok 0 ∧
     (Handle exampleRepo badNameEvent initialWorld).1 = none ∧
     ReadTodoListsProjection exampleRepo (Handle exampleRepo badNameEvent initialWorld).2
       = .ok (some [⟨[0xEF, 0xBF, 0xBD]⟩]) ∧
     ReadTodoListsProjection exampleRepo (Handle exampleRepo badNameEvent initialWorld).2
       ≠ .ok (some ([] ++ [⟨badNameEvent.getName⟩]))) ∧
    (ReadTodoListsCountProjection exampleRepo maxCountWorld = .ok (2 ^ 63 - 1) ∧
     (Handle exampleRepo exampleEvent maxCountWorld).1 = none ∧
     ReadTodoListsCountProjection exampleRepo (Handle exampleRepo exampleEvent maxCountWorld).2
       = .ok (-(2 ^ 63)) ∧
     ReadTodoListsCountProjection exampleRepo (Handle exampleRepo exampleEvent maxCountWorld).2
       ≠ .ok ((2 ^ 63 - 1) + 1)) := by
  decide

/-- C2, as amended: for an identifier whose stream directory does not yet
exist (in a well-formed file system), `n` sequential successful
`UpdateStream` calls with events of that identifier compute the sequence
numbers `1, 2, …, n` in that order, and call number `k` returns the
location of a direct entry of the stream directory whose name is the
decimal of `k` padded with zeros to at least six digits, an underscore and
the rest; for `k ≤ 999999` the first six bytes of that name are the six
digits of `k`. -/
theorem UpdateStream_sequence (repo : Path) (id : Bytes) (es : List Event) (w : World)
    (hwf : wellFormed w.fs = true) (hid : ∀ e ∈ es, e.getID = id)
    (habs : fsExists w.fs (joinPath (repo ++ [lit "event-stream"]) id) = false)
    (hok : ∀ r ∈ (UpdateStreamAll repo es w).1, r.err = none) :
    (UpdateStreamAll repo es w).1.map (fun r => r.seq) = List.range' 1 es.length ∧
    ∀ i r, (UpdateStreamAll repo es w).1[i]? = some r →
      r.seq = i + 1 ∧
      ∃ e x, es[i]? = some e ∧
        joinPath (joinPath (repo ++ [lit "event-stream"]) id)
            (entryName (i + 1) (eventString e))
          = joinPath (repo ++ [lit "event-stream"]) id ++ [sprintf06d (i + 1) ++ 95 :: x] ∧
        r.name = pathString
          (joinPath (repo ++ [lit "event-stream"]) id ++ [sprintf06d (i + 1) ++ 95 :: x]) ∧
        (i + 1 ≤ 999999 → parseUint ((sprintf06d (i + 1) ++ 95 :: x).take 6) = .ok (i + 1)) := by
  have hinv := StreamInv_init w.fs _ hwf habs
  have hD : ∀ e ∈ es, streamDir repo e = joinPath (repo ++ [lit "event-stream"]) id := by
    intro e he
    unfold streamDir
    rw [hid e he]
  obtain ⟨h1, h2⟩ := UpdateStreamAll_run repo _ es w 0 hinv hD hok
  refine ⟨by simpa using h1, ?_⟩
  intro i r hr
  obtain ⟨hs, e, x, he, hj, hn⟩ := h2 i r hr
  have e0 : 0 + 1 + i = i + 1 := by omega
  rw [e0] at hs hj hn
  exact ⟨hs, e, x, he, hj, hn, fun hle => entry_six_digits (i + 1) x hle⟩

/-- C2, witness: three appends to the stream `id1` on the initial world. -/
theorem UpdateStream_sequence_witness :
    (UpdateStreamAll exampleRepo [exampleEvent, badNameEvent, exampleEvent] initialWorld).1.map
        (fun r => r.seq) = List.range' 1 [exampleEvent, badNameEvent, exampleEvent].length ∧
    ∀ i r, (UpdateStreamAll exampleRepo [exampleEvent, badNameEvent, exampleEvent]
        initialWorld).1[i]? = some r →
      r.seq = i + 1 ∧
      ∃ e x, [exampleEvent, badNameEvent, exampleEvent][i]? = some e ∧
        joinPath (joinPath (exampleRepo ++ [lit "event-stream"]) (lit "id1"))
            (entryName (i + 1) (eventString e))
          = joinPath (exampleRepo ++ [lit "event-stream"]) (lit "id1")
              ++ [sprintf06d (i + 1) ++ 95 :: x] ∧
        r.name = pathString
          (joinPath (exampleRepo ++ [lit "event-stream"]) (lit "id1")
            ++ [sprintf06d (i + 1) ++ 95 :: x]) ∧
        (i + 1 ≤ 999999 → parseUint ((sprintf06d (i + 1) ++ 95 :: x).take 6) = .ok (i + 1)) :=
  UpdateStream_sequence exampleRepo (lit "id1") [exampleEvent, badNameEvent, exampleEvent]
    initialWorld (by decide) (by decide) (by decide) (by decide)

/-- The last of `n + 1` sequential appends of the example event to the new
stream `id1` on the initial world: all succeed, and the last computes
sequence number `n + 1` and returns the entry named after it. -/
theorem UpdateStreamAll_replicate_last (n : Nat) :
    (∀ r ∈ (UpdateStreamAll exampleRepo (List.replicate (n + 1) exampleEvent) initialWorld).1,
      r.err = none) ∧
    ∃ r, (UpdateStreamAll exampleRepo (List.replicate (n + 1) exampleEvent) initialWorld).1[n]?
        = some r ∧
      r.seq = n + 1 ∧
      r.name = pathString (joinPath (exampleRepo ++ [lit "event-stream"]) (lit "id1")
        ++ [sprintf06d (n + 1) ++ 95 :: lit "TodoListCreated"]) := by
  have hwf : wellFormed initialWorld.fs = true := by decide
  have habs : fsExists initialWorld.fs
      (joinPath (exampleRepo ++ [lit "event-stream"]) (lit "id1")) = false := by decide
  have hinv := StreamInv_init initialWorld.fs _ hwf habs
  have hok := UpdateStreamAll_TodoListCreated_ok exampleRepo (lit "id1") (lit "Groceries")
    (n + 1) initialWorld 0 hinv (fun _ => by decide)
  have hD : ∀ e ∈ List.replicate (n + 1) exampleEvent,
      streamDir exampleRepo e = joinPath (exampleRepo ++ [lit "event-stream"]) (lit "id1") := by
    intro e he
    rw [List.eq_of_mem_replicate he]
    rfl
  obtain ⟨h1, h2⟩ := UpdateStreamAll_run exampleRepo _ (List.replicate (n + 1) exampleEvent)
    initialWorld 0 hinv hD hok
  have hlen : (UpdateStreamAll exampleRepo (List.replicate (n + 1) exampleEvent)
      initialWorld).1.length = n + 1 := by
    have := congrArg List.length h1
    simpa using this
  have hlt : n < (UpdateStreamAll exampleRepo (List.replicate (n + 1) exampleEvent)
      initialWorld).1.length := by rw [hlen]; omega
  refine ⟨hok, _, List.getElem?_eq_getElem hlt, ?_⟩
  obtain ⟨hs, e, x, he, hj, hn⟩ := h2 n _ (List.getElem?_eq_getElem hlt)
  have hee : e = exampleEvent := by
    have hm : e ∈ List.replicate (n + 1) exampleEvent := List.getElem?_mem he
    exact List.eq_of_mem_replicate hm
  subst hee
  have e0 : 0 + 1 + n = n + 1 := by omega
  rw [e0] at hs hj hn
  have hk : eventString exampleEvent = lit "TodoListCreated" := rfl
  rw [hk, joinPath_TodoListCreated] at hj
  refine ⟨hs, ?_⟩
  rw [hn, ← hj]

/-- C2, counterexample: one million sequential appends of the same event to
the new stream `id1` on the initial world all succeed, and the last of them
computes sequence number 1000000 and returns the entry
`1000000_TodoListCreated`, whose first six bytes are the digits of 100000. -/
theorem UpdateStream_sequence_counterexample :
    wellFormed initialWorld.fs = true ∧
    fsExists initialWorld.fs (joinPath (exampleRepo ++ [lit "event-stream"]) (lit "id1")) = false ∧
    exampleEvent.getID = lit "id1" ∧
    (∀ r ∈ (UpdateStreamAll exampleRepo (List.replicate (999999 + 1) exampleEvent)
        initialWorld).1, r.err = none) ∧
    ∃ r, (UpdateStreamAll exampleRepo (List.replicate (999999 + 1) exampleEvent)
        initialWorld).1[999999]? = some r ∧
      r.seq = 1000000 ∧
      r.name = pathString (joinPath (exampleRepo ++ [lit "event-stream"]) (lit "id1")
        ++ [lit "1000000_TodoListCreated"]) ∧
      parseUint ((lit "1000000_TodoListCreated").take 6) = .ok 100000 ∧
      parseUint ((lit "1000000_TodoListCreated").take 6) ≠ .ok 1000000 := by
  obtain ⟨hok, r, hr, hs, hn⟩ := UpdateStreamAll_replicate_last 999999
  have hname : sprintf06d (999999 + 1) ++ 95 :: lit "TodoListCreated"
      = lit "1000000_TodoListCreated" := by decide
  rw [hname] at hn
  exact ⟨by decide, by decide, rfl, hok, r, hr, hs, hn, by decide, by decide⟩



/-- C3, witness: `InitStorage` on the initial world, where the root exists,
and twice in a row from the empty world. -/
theorem InitStorage_idempotent_witness :
    InitStorage exampleRepo initialWorld = (none, initialWorld) ∧
    (InitStorage exampleRepo (InitStorage exampleRepo emptyWorld).2
        = (none, (InitStorage exampleRepo emptyWorld).2) ∧
      ReadTodoListsProjection exampleRepo
          (InitStorage exampleRepo (InitStorage exampleRepo emptyWorld).2).2
        = ReadTodoListsProjection exampleRepo (InitStorage exampleRepo emptyWorld).2 ∧
      ReadTodoListsCountProjection exampleRepo
          (InitStorage exampleRepo (InitStorage exampleRepo emptyWorld).2).2
        = ReadTodoListsCountProjection exampleRepo (InitStorage exampleRepo emptyWorld).2) :=
  ⟨(InitStorage_idempotent exampleRepo initialWorld).1 (by decide),
   (InitStorage_idempotent exampleRepo emptyWorld).2 (by decide)⟩

/-- C4, witness: the count `-42` and the list with the one name
`Groceries`, as values and through the projection files of the initial
world. -/
theorem projection_roundtrip_witness :
    Atoi (Itoa (-42)) = .ok (-42) ∧
    ReadTodoListsCountProjection exampleRepo (initialWorld.withFs
      (osWriteFile initialWorld.fs (exampleRepo ++ [lit "projections", lit "TodoListsCount"])
        (Itoa (-42))).2) = .ok (-42) ∧
    jsonUnmarshalTodoLists (jsonMarshalTodoLists (some [⟨lit "Groceries"⟩]))
      = .ok (some [⟨lit "Groceries"⟩]) ∧
    ReadTodoListsProjection exampleRepo (initialWorld.withFs
      (osWriteFile initialWorld.fs (exampleRepo ++ [lit "projections", lit "todoLists"])
        (jsonMarshalTodoLists (some [⟨lit "Groceries"⟩]))).2) = .ok (some [⟨lit "Groceries"⟩]) :=
  ⟨(projection_roundtrip exampleRepo initialWorld).1 (-42) (by decide),
   (projection_roundtrip exampleRepo initialWorld).2.1 (-42) _ (by decide) (by decide),
   (projection_roundtrip exampleRepo initialWorld).2.2.1 (some [⟨lit "Groceries"⟩]) (by decide),
   (projection_roundtrip exampleRepo initialWorld).2.2.2 (some [⟨lit "Groceries"⟩]) _
     (by decide) (by decide)⟩

/-- C4, counterexample: a list whose one name is the byte `0xFF` is written
as `[{"Name":"\ufffd"}]` and read back with the name U+FFFD, not the list
that was written. -/
theorem projection_roundtrip_counterexample :
    jsonMarshalTodoLists (some [⟨[0xFF]⟩]) = lit "[\x7b\"Name\":\"\\ufffd\"\x7d]" ∧
    jsonUnmarshalTodoLists (jsonMarshalTodoLists (some [⟨[0xFF]⟩]))
      = .ok (some [⟨[0xEF, 0xBF, 0xBD]⟩]) ∧
    jsonUnmarshalTodoLists (jsonMarshalTodoLists (some [⟨[0xFF]⟩])) ≠ .ok (some [⟨[0xFF]⟩]) := by
  decide

/-- C5, witness: `StoreEvent` on a world without the root (the stream step
fails), on a world whose index is a directory (the index step fails), on a
world without projections (`Handle` fails), and on the initial world (all
steps succeed and `Commit` is called once with the identifier). -/
theorem StoreEvent_fail_fast_witness :
    (StoreEvent exampleRepo exampleEvent emptyWorld = (some .notExist, emptyWorld) ∧
      emptyWorld.commits = emptyWorld.commits ∧ emptyWorld.gitLog = emptyWorld.gitLog) ∧
    (StoreEvent exampleRepo exampleEvent indexDirWorld
        = (some .isDirectory, (UpdateStream exampleRepo exampleEvent indexDirWorld).2) ∧
      (UpdateStream exampleRepo exampleEvent indexDirWorld).2.commits = indexDirWorld.commits ∧
      (UpdateStream exampleRepo exampleEvent indexDirWorld).2.gitLog = indexDirWorld.gitLog) ∧
    (StoreEvent exampleRepo exampleEvent noProjectionWorld
        = (some .notExist, (UpdateStreamIndex exampleRepo
            (UpdateStream exampleRepo exampleEvent noProjectionWorld).1.1
            (UpdateStream exampleRepo exampleEvent noProjectionWorld).2).2) ∧
      (UpdateStreamIndex exampleRepo
            (UpdateStream exampleRepo exampleEvent noProjectionWorld).1.1
            (UpdateStream exampleRepo exampleEvent noProjectionWorld).2).2.commits
        = noProjectionWorld.commits ∧
      (UpdateStreamIndex exampleRepo
            (UpdateStream exampleRepo exampleEvent noProjectionWorld).1.1
            (UpdateStream exampleRepo exampleEvent noProjectionWorld).2).2.gitLog
        = noProjectionWorld.gitLog) ∧
    (StoreEvent exampleRepo exampleEvent initialWorld
        = Commit exampleRepo exampleEvent.getID
            (Handle exampleRepo exampleEvent (UpdateStreamIndex exampleRepo
              (UpdateStream exampleRepo exampleEvent initialWorld).1.1
              (UpdateStream exampleRepo exampleEvent initialWorld).2).2).2 ∧
      (StoreEvent exampleRepo exampleEvent initialWorld).2.commits
        = initialWorld.commits ++ [(exampleRepo, exampleEvent.getID)]) :=
  ⟨(StoreEvent_fail_fast exampleRepo exampleEvent emptyWorld).1 [] .notExist emptyWorld
      (by decide),
   (StoreEvent_fail_fast exampleRepo exampleEvent indexDirWorld).2.1
      (UpdateStream exampleRepo exampleEvent indexDirWorld).1.1
      (UpdateStream exampleRepo exampleEvent indexDirWorld).2 .isDirectory
      (UpdateStream exampleRepo exampleEvent indexDirWorld).2
      (by decide) (by decide),
   (StoreEvent_fail_fast exampleRepo exampleEvent noProjectionWorld).2.2.1
      (UpdateStream exampleRepo exampleEvent noProjectionWorld).1.1
      (UpdateStream exampleRepo exampleEvent noProjectionWorld).2
      (UpdateStreamIndex exampleRepo
        (UpdateStream exampleRepo exampleEvent noProjectionWorld).1.1
        (UpdateStream exampleRepo exampleEvent noProjectionWorld).2).2
      .notExist
      (UpdateStreamIndex exampleRepo
        (UpdateStream exampleRepo exampleEvent noProjectionWorld).1.1
        (UpdateStream exampleRepo exampleEvent noProjectionWorld).2).2
      (by decide) (by decide) (by decide),
   (StoreEvent_fail_fast exampleRepo exampleEvent initialWorld).2.2.2
      (UpdateStream exampleRepo exampleEvent initialWorld).1.1
      (UpdateStream exampleRepo exampleEvent initialWorld).2
      (UpdateStreamIndex exampleRepo
        (UpdateStream exampleRepo exampleEvent initialWorld).1.1
        (UpdateStream exampleRepo exampleEvent initialWorld).2).2
      (Handle exampleRepo exampleEvent (UpdateStreamIndex exampleRepo
        (UpdateStream exampleRepo exampleEvent initialWorld).1.1
        (UpdateStream exampleRepo exampleEvent initialWorld).2).2).2
      (by decide) (by decide) (by decide)⟩

/-- C6, witness: an event of another type, on the initial world. -/
theorem Handle_unhandled_noop_witness :
    Handle exampleRepo otherEvent initialWorld = (none, initialWorld) :=
  Handle_unhandled_noop exampleRepo otherEvent initialWorld
    (by intro id name h; simp [otherEvent] at h)



/-- The file name a successful `UpdateStream` returns is the location it
wrote to. -/
theorem UpdateStream_name (repo : Path) (event : Event) (w : World) (name : Bytes) (w1 : World)
    (h : UpdateStream repo event w = ((name, none), w1)) :
    name = pathString (streamFile repo event w) := by
  simp only [UpdateStream] at h
  simp only [streamFile_eq] at h
  split at h
  · simp at h
  · split at h
    · simp at h
    · split at h
      · simp at h
      · split at h
        · simp at h
        · simp only [Prod.mk.injEq, and_true] at h
          exact h.1.symm

/-- C7: the file name `UpdateStream` builds for sequence number `n` and
kind tag `K` is the stream directory joined with `Sprintf("%06d", n)`, an
underscore and `K`; for `n ≤ 999999` that number is written with exactly
six digits, zero-padded (`000001_TodoListCreated` for the first event);
and for `1 ≤ m < n ≤ 999999` the entry name for `m` is byte-wise strictly
smaller than the entry name for `n`, whatever the kind tags. -/
theorem entryName_format_and_order :
    (∀ (repo : Path) (event : Event) (w : World) (name : Bytes) (w1 : World),
      UpdateStream repo event w = ((name, none), w1) →
      name = pathString (joinPath (streamDir repo event)
        (sprintf06d (seqNum repo event w) ++ lit "_" ++ eventString event))) ∧
    (∀ (n : Nat) (K : Bytes), n ≤ 999999 →
      entryName n K = [48 + n / 100000, 48 + n / 10000 % 10, 48 + n / 1000 % 10,
        48 + n / 100 % 10, 48 + n / 10 % 10, 48 + n % 10] ++ lit "_" ++ K) ∧
    entryName 1 (lit "TodoListCreated") = lit "000001_TodoListCreated" ∧
    (∀ (m n : Nat) (K1 K2 : Bytes), 1 ≤ m → m < n → n ≤ 999999 →
      lexLt (entryName m K1) (entryName n K2) = true) := by
  have hu : lit "_" = [95] := by decide
  refine ⟨?_, ?_, by decide, ?_⟩
  · intro repo event w name w1 h
    rw [UpdateStream_name repo event w name w1 h, hu]
    simp [streamFile, entryName]
  · intro n K hn
    rw [hu]
    unfold entryName
    rw [sprintf06d_six n hn]
    simp
  · intro m n K1 K2 _ hmn hn
    exact entryName_lexLt m n K1 K2 hmn hn

/-- C7, witness: the first entry of the stream `id1` on the initial world,
the digits of 42, and entries 9 and 10 with different kind tags. -/
theorem entryName_format_and_order_witness :
    (UpdateStream exampleRepo exampleEvent initialWorld).1.1
      = pathString (joinPath (streamDir exampleRepo exampleEvent)
        (sprintf06d (seqNum exampleRepo exampleEvent initialWorld) ++ lit "_"
          ++ eventString exampleEvent)) ∧
    entryName 42 (lit "TodoListCreated") = [48 + 42 / 100000, 48 + 42 / 10000 % 10,
      48 + 42 / 1000 % 10, 48 + 42 / 100 % 10, 48 + 42 / 10 % 10, 48 + 42 % 10] ++ lit "_"
      ++ lit "TodoListCreated" ∧
    lexLt (entryName 9 (lit "Z")) (entryName 10 (lit "A")) = true :=
  ⟨entryName_format_and_order.1 exampleRepo exampleEvent initialWorld
      (UpdateStream exampleRepo exampleEvent initialWorld).1.1
      (UpdateStream exampleRepo exampleEvent initialWorld).2 (by decide),
   entryName_format_and_order.2.1 42 (lit "TodoListCreated") (by decide),
   entryName_format_and_order.2.2.2 9 10 (lit "Z") (lit "A") (by decide) (by decide)
     (by decide)⟩

/-- C9, as amended: `UpdateStream` does not detect an existing entry. In
every state in which a file already exists at the computed entry
reference, a successful call returns that reference and leaves the file
holding its earlier contents followed by the serialized event; in every
state in which nothing exists at the reference, a successful call returns
that reference and leaves a new file whose sole contents are the serialized
event. -/
theorem UpdateStream_existing_entry (repo : Path) (event : Event) (w : World) :
    (∀ c name w1, fsLookup w.fs (streamFile repo event w) = some (.file c) →
      UpdateStream repo event w = ((name, none), w1) →
      name = pathString (streamFile repo event w) ∧
      ∃ bytes, jsonMarshalEvent event = .ok bytes ∧
        fsLookup w1.fs (streamFile repo event w) = some (.file (c ++ bytes))) ∧
    (∀ name w1, fsLookup w.fs (streamFile repo event w) = none →
      UpdateStream repo event w = ((name, none), w1) →
      name = pathString (streamFile repo event w) ∧
      ∃ bytes, jsonMarshalEvent event = .ok bytes ∧
        fsLookup w1.fs (streamFile repo event w) = some (.file bytes)) := by
  constructor
  · intro c name w1 hfile hrun
    simp only [UpdateStream] at hrun
    simp only [streamFile_eq] at hrun
    split at hrun
    · simp at hrun
    · rename_i fs1 hmk
      have hl1 : fsLookup fs1 (streamFile repo event w) = some (.file c) := by
        split at hmk
        · unfold osMkdir at hmk
          split at hmk
          · simp at hmk
          · rename_i hex
            split at hmk
            · simp at hmk
            · simp only [Prod.mk.injEq, true_and] at hmk
              rw [← hmk]
              have hne : streamFile repo event w ≠ streamDir repo event := by
                intro he
                rw [he] at hfile
                simp [fsExists, hfile] at hex
              rw [fsLookup_fsInsert_ne _ _ _ _ hne]; exact hfile
        · simp only [Prod.mk.injEq, true_and] at hmk
          rw [← hmk]; exact hfile
      split at hrun
      · simp at hrun
      · rename_i fs2 hop
        have hfs2 : fs2 = fs1 := by
          unfold osOpenFileCreate at hop
          split at hop
          · simp at hop
          · rw [hl1] at hop
            simp only [Prod.mk.injEq, true_and] at hop
            exact hop.symm
        subst hfs2
        split at hrun
        · simp at hrun
        · rename_i bytes hjson
          have hap : osAppend fs2 (streamFile repo event w) bytes
              = (none, fsInsert (streamFile repo event w) (.file (c ++ bytes)) fs2) := by
            simp [osAppend, hl1]
          rw [hap] at hrun
          simp only [Prod.mk.injEq, and_true] at hrun
          refine ⟨hrun.1.symm, bytes, hjson, ?_⟩
          rw [← hrun.2]
          exact fsLookup_fsInsert_self _ _ _
  · intro name w1 habs hrun
    simp only [UpdateStream] at hrun
    simp only [streamFile_eq] at hrun
    split at hrun
    · simp at hrun
    · rename_i fs1 hmk
      have hl1 : fsLookup fs1 (streamFile repo event w) = none ∨
          fsLookup fs1 (streamFile repo event w) = some .dir := by
        split at hmk
        · unfold osMkdir at hmk
          split at hmk
          · simp at hmk
          · split at hmk
            · simp at hmk
            · simp only [Prod.mk.injEq, true_and] at hmk
              rw [← hmk]
              by_cases he : streamFile repo event w = streamDir repo event
              · right; rw [he]; exact fsLookup_fsInsert_self _ _ _
              · left; rw [fsLookup_fsInsert_ne _ _ _ _ he]; exact habs
        · simp only [Prod.mk.injEq, true_and] at hmk
          rw [← hmk]; exact Or.inl habs
      split at hrun
      · simp at hrun
      · rename_i fs2 hop
        have hfs2 : fs2 = fsInsert (streamFile repo event w) (.file []) fs1 := by
          unfold osOpenFileCreate at hop
          split at hop
          · simp at hop
          · rcases hl1 with h | h
            · rw [h] at hop
              simp only at hop
              split at hop
              · simp at hop
              · simp only [Prod.mk.injEq, true_and] at hop
                exact hop.symm
            · rw [h] at hop
              simp at hop
        split at hrun
        · simp at hrun
        · rename_i bytes hjson
          have hap : osAppend fs2 (streamFile repo event w) bytes
              = (none, fsInsert (streamFile repo event w) (.file bytes) fs2) := by
            simp [osAppend, hfs2, fsLookup_fsInsert_self]
          rw [hap] at hrun
          simp only [Prod.mk.injEq, and_true] at hrun
          refine ⟨hrun.1.symm, bytes, hjson, ?_⟩
          rw [← hrun.2]
          exact fsLookup_fsInsert_self _ _ _

/-- C9, witness: an append to the stream of `id1` that holds the single
entry `000002_TodoListCreated`, and the first append to a new stream. -/
theorem UpdateStream_existing_entry_witness :
    ((UpdateStream exampleRepo exampleEvent staleEntryWorld).1.1
        = pathString (streamFile exampleRepo exampleEvent staleEntryWorld) ∧
      ∃ bytes, jsonMarshalEvent exampleEvent = .ok bytes ∧
        fsLookup (UpdateStream exampleRepo exampleEvent staleEntryWorld).2.fs
          (streamFile exampleRepo exampleEvent staleEntryWorld)
          = some (.file (lit "old" ++ bytes))) ∧
    ((UpdateStream exampleRepo exampleEvent initialWorld).1.1
        = pathString (streamFile exampleRepo exampleEvent initialWorld) ∧
      ∃ bytes, jsonMarshalEvent exampleEvent = .ok bytes ∧
        fsLookup (UpdateStream exampleRepo exampleEvent initialWorld).2.fs
          (streamFile exampleRepo exampleEvent initialWorld) = some (.file bytes)) :=
  ⟨(UpdateStream_existing_entry exampleRepo exampleEvent staleEntryWorld).1 (lit "old")
      (UpdateStream exampleRepo exampleEvent staleEntryWorld).1.1
      (UpdateStream exampleRepo exampleEvent staleEntryWorld).2 (by decide) (by decide),
   (UpdateStream_existing_entry exampleRepo exampleEvent initialWorld).2
      (UpdateStream exampleRepo exampleEvent initialWorld).1.1
      (UpdateStream exampleRepo exampleEvent initialWorld).2 (by decide) (by decide)⟩


/-- C9, counterexample: the stream of `id1` holds the single entry
`000002_TodoListCreated` with contents `old`; `UpdateStream` computes
sequence number 2, finds that file at the computed reference, returns no
error and leaves the file with other contents than before. -/
theorem UpdateStream_existing_entry_counterexample :
    seqNum exampleRepo exampleEvent staleEntryWorld = 2 ∧
    streamFile exampleRepo exampleEvent staleEntryWorld
      = exampleRepo ++ [lit "event-stream", lit "id1", lit "000002_TodoListCreated"] ∧
    fsLookup staleEntryWorld.fs (streamFile exampleRepo exampleEvent staleEntryWorld)
      = some (.file (lit "old")) ∧
    (UpdateStream exampleRepo exampleEvent staleEntryWorld).1.2 = none ∧
    fsLookup (UpdateStream exampleRepo exampleEvent staleEntryWorld).2.fs
        (streamFile exampleRepo exampleEvent staleEntryWorld)
      = some (.file (lit "old\x7b\"ID\":\"id1\",\"Name\":\"Groceries\"\x7d")) ∧
    fsLookup (UpdateStream exampleRepo exampleEvent staleEntryWorld).2.fs
        (streamFile exampleRepo exampleEvent staleEntryWorld)
      ≠ fsLookup staleEntryWorld.fs (streamFile exampleRepo exampleEvent staleEntryWorld) := by
  decide

/-- C10, the code at the failing input: the stream directory of `id1`
exists and has no entries; `UpdateStream` counts zero entries, calls
`Mkdir` on the existing directory, and returns the empty file name with the
error of `Mkdir`, writing nothing. -/
theorem UpdateStream_empty_stream_dir_fails :
    fsIsDir emptyStreamWorld.fs (streamDir exampleRepo exampleEvent) = true ∧
    osReadDir emptyStreamWorld.fs (streamDir exampleRepo exampleEvent) = ([], none) ∧
    UpdateStream exampleRepo exampleEvent emptyStreamWorld
      = (([], some .alreadyExists), emptyStreamWorld) ∧
    fsLookup (UpdateStream exampleRepo exampleEvent emptyStreamWorld).2.fs
      (exampleRepo ++ [lit "event-stream", lit "id1", lit "000001_TodoListCreated"]) = none := by
  decide


end GitBackedCqrs
